import Mathlib

/-!
Verification of the OpenMP compute-kernel repository: a dense integer
matrix multiply (two variants: a scalar accumulate kernel and an AVX2
lane/tail kernel) and an all-pairs shortest-path relaxation kernel
(two variants: a scalar Floyd-Warshall and an AVX2 lane/tail
Floyd-Warshall).  The kernels are shallowly embedded: flat row-major
buffers become total functions from flat indices to integers, C int
arithmetic becomes integer arithmetic wrapped to 32 bits, and the
loop nests become structural folds executed in program order (the
sequential semantics of the OpenMP parallel loops; the pivot-loop
scheduling of the APSP kernel is additionally modelled by explicit
row-granular schedules to analyse its barrier behaviour).
-/

/-- Signed 32-bit wrap-around: the value of a C int after overflow on
two-is-complement hardware. -/

def wrap32 (z : ℤ) : ℤ := (z + 2 ^ 31) % 2 ^ 32 - 2 ^ 31

/-- INT_MAX, the sentinel for an absent edge in the APSP kernels. -/

def IMAX : ℤ := 2 ^ 31 - 1

/-- INT_MAX / 2 with C truncating division: the saturation threshold of
the AVX2 APSP variant. -/

def IMAXH : ℤ := IMAX / 2

/-- Point update of a flat buffer. -/

def upd (s : ℕ → ℤ) (c : ℕ) (v : ℤ) : ℕ → ℤ :=
  fun x => if x = c then v else s x

/-- Counted loop: loopN f m s runs f on indices 0, 1, ..., m-1 in
ascending order starting from state s. -/

def loopN {α : Type} (f : ℕ → α → α) : ℕ → α → α
  | 0, s => s
  | m + 1, s => f m (loopN f m s)

/-! ## Matrix multiply, scalar variant (src/matmul.cpp)

The kernel accumulates res[i*K+j] += A[i*N+d] * B[d*K+j] over the
triple loop i < M, j < K, d < N; each output cell is touched only by
its own (i, j) iteration, so the sequential order below is the
parallel loop order as well. -/

/-- One accumulation step of the scalar matmul: res[i*K+j] += A[i*N+d]
* B[d*K+j], with both the product and the sum wrapping as C int. -/

def mmAccum (N K : ℕ) (A B : ℕ → ℤ) (i j d : ℕ) (s : ℕ → ℤ) : ℕ → ℤ :=
  upd s (i * K + j) (wrap32 (s (i * K + j) + wrap32 (A (i * N + d) * B (d * K + j))))

/-- The scalar matmul kernel of src/matmul.cpp. -/

def matmul (M N K : ℕ) (A B : ℕ → ℤ) (res : ℕ → ℤ) : ℕ → ℤ :=
  loopN (fun i s =>
    loopN (fun j t =>
      loopN (fun d u => mmAccum N K A B i j d u) N t) K s) M res

/-! ## Matrix multiply, AVX2 variant (src/unnamed/part_000)

Per output iteration (i, j) the kernel zeroes an 8-lane accumulator,
then for d = 0, 8, 16, ... < N broadcasts A[i*N+d], loads the eight
contiguous ints B[d*K+j .. d*K+j+7], multiply-accumulates lanewise
(wrapping), stores the eight lanes at res[i*K+j .. i*K+j+7], and
finally runs a scalar remainder loop from the exit value of d (the
first multiple of 8 that is at least N) up to N. -/

/-- Lane accumulator of the AVX2 matmul after t vector steps:
lane l holds the wrapped sum over d in {0, 8, ..., 8(t-1)} of
A[i*N+d] * B[d*K+j+l]. -/

def mmLanes (N K : ℕ) (A B : ℕ → ℤ) (i j : ℕ) (t0 : ℕ) : ℕ → ℤ :=
  loopN (fun t f => fun l =>
    wrap32 (f l + wrap32 (A (i * N + 8 * t) * B ((8 * t) * K + j + l))))
    t0 (fun _ => 0)

/-- One (i, j) iteration of the AVX2 matmul: the vector loop runs
ceil(N/8) steps, the 8-lane store hits res[i*K+j .. i*K+j+7], and the
scalar remainder runs from the exit value of d, which is
8 * ceil(N/8), up to N (an empty range). -/

def mmVecCell (N K : ℕ) (A B : ℕ → ℤ) (i j : ℕ) (s : ℕ → ℤ) : ℕ → ℤ :=
  loopN (fun m u =>
    upd u (i * K + j)
      (wrap32 (u (i * K + j) +
        wrap32 (A (i * N + (8 * ((N + 7) / 8) + m)) * B ((8 * ((N + 7) / 8) + m) * K + j)))))
    (N - 8 * ((N + 7) / 8))
    (fun c =>
      if i * K + j ≤ c ∧ c < i * K + j + 8 then
        mmLanes N K A B i j ((N + 7) / 8) (c - (i * K + j))
      else s c)

/-- The AVX2 matmul kernel of src/unnamed/part_000. -/

def matmulVec (M N K : ℕ) (A B : ℕ → ℤ) (res : ℕ → ℤ) : ℕ → ℤ :=
  loopN (fun i s => loopN (fun j t => mmVecCell N K A B i j t) K s) M res

/-! ## APSP, scalar variant (src/unnamed/part_003) -/

/-- Saturating combine of the scalar Floyd-Warshall: INT_MAX if either
operand equals INT_MAX, otherwise the wrapping C sum. -/

def satAdd (x y : ℤ) : ℤ :=
  if x = IMAX ∨ y = IMAX then IMAX else wrap32 (x + y)

/-- One relaxation of the scalar Floyd-Warshall:
r[i*n+j] = min(r[i*n+j], satAdd(r[i*n+k], r[k*n+j])), with both
operands read fresh from the current state. -/

def fwStep (n k i j : ℕ) (s : ℕ → ℤ) : ℕ → ℤ :=
  upd s (i * n + j) (min (s (i * n + j)) (satAdd (s (i * n + k)) (s (k * n + j))))

/-- Row i of pivot k of the scalar Floyd-Warshall: the inner j loop. -/

def fwRow (n k i : ℕ) (s : ℕ → ℤ) : ℕ → ℤ :=
  loopN (fun j t => fwStep n k i j t) n s

/-- Pivot k of the scalar Floyd-Warshall: the loop over rows i. -/

def fwPivot (n k : ℕ) (s : ℕ → ℤ) : ℕ → ℤ :=
  loopN (fun i t => fwRow n k i t) n s

/-- The copy phase shared by both APSP variants: r[i*n+j] = d[i*n+j]
for all i, j < n. -/

def copyPhase (r d : ℕ → ℤ) (n : ℕ) : ℕ → ℤ :=
  loopN (fun i s => loopN (fun j t => upd t (i * n + j) (d (i * n + j))) n s) n r

/-- The FloyD kernel of src/unnamed/part_003 under its sequential
semantics: copy phase, then pivots k = 0 .. n-1 in ascending order. -/

def FloyD (r d : ℕ → ℤ) (n : ℕ) : ℕ → ℤ :=
  loopN (fun k s => fwPivot n k s) n (copyPhase r d n)

/-! ## APSP, AVX2 variant (src/unnamed/part_001) -/

/-- Saturating combine of the AVX2 Floyd-Warshall: INT_MAX if either
operand is at least INT_MAX / 2, otherwise the wrapping sum.  The
vector path expresses it as blendv(INT_MAX, x + y, (H > x) and
(H > y)) lanewise and the scalar tail as a conditional; both compute
this function. -/

def sat2 (x y : ℤ) : ℤ :=
  if IMAXH ≤ x ∨ IMAXH ≤ y then IMAX else wrap32 (x + y)

/-- One 8-lane block of the AVX2 Floyd-Warshall row pass: the loads of
r[k*n+8t .. +7] and r[i*n+8t .. +7] and the store of the lanewise
min(curr, sat2(x0, y)) all happen against the state at block entry;
x0 is the broadcast of r[i*n+k] read once at row entry. -/

def fw2Block (n k i : ℕ) (x0 : ℤ) (t : ℕ) (s : ℕ → ℤ) : ℕ → ℤ :=
  fun c =>
    if i * n + 8 * t ≤ c ∧ c < i * n + 8 * t + 8 then
      min (s c) (sat2 x0 (s (k * n + (c - i * n))))
    else s c

/-- One scalar-tail relaxation of the AVX2 Floyd-Warshall, with x and
y read fresh. -/

def fw2Tail (n k i j : ℕ) (s : ℕ → ℤ) : ℕ → ℤ :=
  upd s (i * n + j) (min (s (i * n + j)) (sat2 (s (i * n + k)) (s (k * n + j))))

/-- Row i of pivot k of the AVX2 Floyd-Warshall: x0 is read once,
n / 8 full blocks run at stride 8, and the scalar tail covers the
remaining n mod 8 columns. -/

def fw2Row (n k i : ℕ) (s : ℕ → ℤ) : ℕ → ℤ :=
  let x0 := s (i * n + k)
  let afterBlocks := loopN (fun t u => fw2Block n k i x0 t u) (n / 8) s
  loopN (fun m u => fw2Tail n k i (8 * (n / 8) + m) u) (n - 8 * (n / 8)) afterBlocks

/-- Pivot k of the AVX2 Floyd-Warshall. -/

def fw2Pivot (n k : ℕ) (s : ℕ → ℤ) : ℕ → ℤ :=
  loopN (fun i t => fw2Row n k i t) n s

/-- The FloyD kernel of src/unnamed/part_001 under its sequential
semantics. -/

def FloyD2 (r d : ℕ → ℤ) (n : ℕ) : ℕ → ℤ :=
  loopN (fun k s => fw2Pivot n k s) n (copyPhase r d n)

/-- Modelled from the spec: the lane-width-agnostic pure scalar
reference for the AVX2 Floyd-Warshall variant, i.e. the same
relaxation with the same sat2 combine but a single scalar column loop
and every operand read fresh. -/

def fw2RowScalar (n k i : ℕ) (s : ℕ → ℤ) : ℕ → ℤ :=
  loopN (fun j t => fw2Tail n k i j t) n s

/-- Pivot phase of the scalar reference for the AVX2 variant. -/

def fw2PivotScalar (n k : ℕ) (s : ℕ → ℤ) : ℕ → ℤ :=
  loopN (fun i t => fw2RowScalar n k i t) n s

/-- The scalar reference for the AVX2 Floyd-Warshall variant. -/

def FloyD2Scalar (r d : ℕ → ℤ) (n : ℕ) : ℕ → ℤ :=
  loopN (fun k s => fw2PivotScalar n k s) n (copyPhase r d n)

/-! ## Row-granular schedules for the pivot loop

Both APSP variants place the OpenMP parallel-for on the pivot loop, so
distinct pivots may execute concurrently; a thread may stall between
any two rows of its pivot.  A run of the relaxation phase is therefore
an interleaving of the per-pivot row sequences.  An action (k, i)
executes row i of pivot k atomically (scalar variant semantics). -/

/-- Execute a list of (pivot, row) actions in order. -/

def execSched (n : ℕ) (sched : List (ℕ × ℕ)) (s : ℕ → ℤ) : ℕ → ℤ :=
  sched.foldl (fun t a => fwRow n a.1 a.2 t) s

/-- The fully barriered schedule: all rows of pivot k before any row
of pivot k+1. -/

def seqSched (n : ℕ) : List (ℕ × ℕ) :=
  (List.range n).flatMap (fun k => (List.range n).map (fun i => (k, i)))

/-- A schedule is a legal execution of the parallel-for pivot loop if
it is an interleaving of the per-pivot row sequences: per pivot k the
actions with first component k are exactly (k, 0), ..., (k, n-1) in
order. -/

def isInterleaving (n : ℕ) (sched : List (ℕ × ℕ)) : Prop :=
  sched.length = n * n ∧
    ∀ k ∈ List.range n,
      sched.filter (fun a => a.1 = k) = (List.range n).map (fun i => (k, i))

/-- A schedule respects the per-pivot barrier of the claim when pivot
indices never decrease along it. -/

def pivotOrdered (sched : List (ℕ × ℕ)) : Prop :=
  sched.Pairwise (fun a b => a.1 ≤ b.1)

/-! ## Concrete inputs used by the concrete theorems -/

/-- All-ones operand matrix. -/

def oneMat : ℕ → ℤ := fun _ => 1

/-- All-zeros buffer. -/

def zeroBuf : ℕ → ℤ := fun _ => 0

/-- Flat matrix built from a list, defaulting to 0 out of range. -/

def ofList (l : List ℤ) : ℕ → ℤ := fun c => l.getD c 0

/-- Directed 4-chain 0 -> 1 -> 2 -> 3 with unit weights, used to show
the pivot barrier matters. -/

def chain4 : ℕ → ℤ :=
  ofList [0, 1, IMAX, IMAX, IMAX, 0, 1, IMAX, IMAX, IMAX, 0, 1, IMAX, IMAX, IMAX, 0]

/-- The out-of-order but parallel-for-legal schedule: row 0 of pivot 2
runs before pivot 1 has finished (indeed before it has started). -/

def badSched : List (ℕ × ℕ) :=
  [(2, 0), (1, 0), (2, 1), (2, 2), (2, 3), (1, 1), (1, 2), (1, 3),
   (0, 0), (0, 1), (0, 2), (0, 3), (3, 0), (3, 1), (3, 2), (3, 3)]

set_option maxRecDepth 100000

instance (n : ℕ) (sched : List (ℕ × ℕ)) : Decidable (isInterleaving n sched) := by
  unfold isInterleaving; infer_instance

instance (sched : List (ℕ × ℕ)) : Decidable (pivotOrdered sched) := by
  unfold pivotOrdered; infer_instance

/-- The n = 4 distance matrix of the concrete APSP scenario. -/

def dmat4 : ℕ → ℤ :=
  ofList [0, 3, IMAX, 7, 3, 0, 1, IMAX, IMAX, 1, 0, 2, 7, IMAX, 2, 0]

/-- Symmetric valid n = 3 matrix with two weights of 2^30 on the path
0 - 1 - 2: the scalar combine does not saturate below the sentinel,
so the relaxation at pivot 1 wraps 2^30 + 2^30 to -2^31. -/

def dOverflow : ℕ → ℤ :=
  ofList [0, 2 ^ 30, IMAX, 2 ^ 30, 0, 2 ^ 30, IMAX, 2 ^ 30, 0]

/-- Symmetric valid n = 3 matrix with weights 0 and 3 * 2^29 whose
FloyD output is not a fixed point of FloyD. -/

def dNonIdem : ℕ → ℤ :=
  ofList [0, 0, 3 * 2 ^ 29, 0, 0, 0, 3 * 2 ^ 29, 0, 0]

/-- Constant buffer holding 5, a nonzero initial output buffer. -/

def fiveBuf : ℕ → ℤ := fun _ => 5

/-- All in-range cells of a buffer lie in [0, INT_MAX]. -/

def InBounds (s : ℕ → ℤ) (n : ℕ) : Prop :=
  ∀ i j : ℕ, i < n → j < n → 0 ≤ s (i * n + j) ∧ s (i * n + j) ≤ IMAX

/-- Pointwise target of one AVX2 row pass, cut off after the first J
columns: processed cells hold min(old, sat2(x, y)) over the entry
state, the rest are untouched. -/

def fwPartial (n k i : ℕ) (s : ℕ → ℤ) (J : ℕ) : ℕ → ℤ :=
  fun c =>
    if i * n ≤ c ∧ c < i * n + J then
      min (s c) (sat2 (s (i * n + k)) (s (k * n + (c - i * n))))
    else s c

/-! ## Claims C2 and C7: min-plus semantics of the scalar APSP kernel

The mathematical side works in the min-plus semiring over extended
naturals.  A matrix of C ints is encoded by sending the sentinel
INT_MAX to infinity and every other (non-negative) entry to itself;
out-of-range index pairs carry infinity.  The pure scalar reference
relaxation fwRef is the textbook Floyd-Warshall recursion, and walks
(lists of intermediate vertices) give the true shortest-path
distances. -/

/-- Encode a C int APSP entry: the sentinel becomes infinity. -/

def toW (z : ℤ) : ℕ∞ := if z = IMAX then ⊤ else ((z.toNat : ℕ) : ℕ∞)

/-- Decode an extended natural into a C int APSP entry: infinity
becomes the sentinel. -/

def ofW (x : ℕ∞) : ℤ := if x = ⊤ then IMAX else ((x.toNat : ℕ) : ℤ)

/-- The weight matrix of an n x n flat C buffer, infinity outside the
range. -/

def wOf (d : ℕ → ℤ) (n : ℕ) : ℕ → ℕ → ℕ∞ :=
  fun i j => if i < n ∧ j < n then toW (d (i * n + j)) else ⊤

/-- Weight of the walk that starts at i, visits the listed
intermediate vertices in order, and ends at j. -/

def wWeight (w : ℕ → ℕ → ℕ∞) (i : ℕ) : List ℕ → ℕ → ℕ∞
  | [], j => w i j
  | v :: l, j => w i v + wWeight w v l j

/-- Modelled from the spec: the pure scalar reference relaxation, the
textbook Floyd-Warshall recursion over the min-plus semiring.
fwRef w k i j is the best path weight from i to j through intermediate
vertices below k. -/

def fwRef (w : ℕ → ℕ → ℕ∞) : ℕ → ℕ → ℕ → ℕ∞
  | 0, i, j => w i j
  | k + 1, i, j => min (fwRef w k i j) (fwRef w k i k + fwRef w k k j)

/-- x is the true shortest-path distance from i to j: a lower bound on
every walk weight that is attained by some walk unless it is
infinity (no walk exists, i.e. j is unreachable from i). -/

def IsDist (w : ℕ → ℕ → ℕ∞) (i j : ℕ) (x : ℕ∞) : Prop :=
  (∀ l : List ℕ, x ≤ wWeight w i l j) ∧
    (x = ⊤ ∨ ∃ l : List ℕ, wWeight w i l j = x)

/-- Finite part of an APSP matrix entry: 0 at the sentinel. -/

def finW (d : ℕ → ℤ) (n i j : ℕ) : ℕ :=
  if d (i * n + j) = IMAX then 0 else (d (i * n + j)).toNat

/-- Sum of the finite entries of row i. -/

def rowSum (d : ℕ → ℤ) (n i : ℕ) : ℕ :=
  Finset.sum (Finset.range n) (fun j => finW d n i j)

/-- Sum of all finite entries of the matrix. -/

def Ssum (d : ℕ → ℤ) (n : ℕ) : ℕ :=
  Finset.sum (Finset.range n) (fun i => rowSum d n i)

/-- The C state s decodes the min-plus matrix g on all in-range
cells. -/

def Agrees (s : ℕ → ℤ) (g : ℕ → ℕ → ℕ∞) (n : ℕ) : Prop :=
  ∀ i j : ℕ, i < n → j < n → s (i * n + j) = ofW (g i j)

/-- Mixed matrix during pivot processing: rows below I, and the first
J cells of row I, already hold the next stage h; the rest still holds
the current stage g. -/

def gmix (g h : ℕ → ℕ → ℕ∞) (I J : ℕ) : ℕ → ℕ → ℕ∞ :=
  fun i j => if i < I ∨ (i = I ∧ j < J) then h i j else g i j

/-! ## Theorems -/

/-! ## Theorems -/

/-- Claim C6: the two saturating-combine policies differ at, for
example, x = 2^30 and y = 5: the combined value 2^30 + 5 exceeds
sentinel/2 but stays below the sentinel, the scalar variant returns
it exactly, and the AVX2 variant saturates to the sentinel. -/
theorem satAdd_ne_sat2 :
    IMAXH < 2 ^ 30 + 5 ∧ 2 ^ 30 + 5 < IMAX ∧
      satAdd (2 ^ 30) 5 = 2 ^ 30 + 5 ∧ sat2 (2 ^ 30) 5 = IMAX ∧
      satAdd (2 ^ 30) 5 ≠ sat2 (2 ^ 30) 5 := by
  refine ⟨by decide, by decide, ?_, by decide, ?_⟩
  · show satAdd (2 ^ 30) 5 = 2 ^ 30 + 5
    decide
  · decide

/-- Claim C3: each variant saturates its own combine: whenever an
operand is at or above the variant's threshold (the sentinel itself
for the scalar variant, sentinel/2 for the AVX2 variant), the combine
returns exactly the sentinel, hence never a value below the sentinel
and never a negative number. -/

theorem satAdd_saturates (x y : ℤ) (hx : x ≤ IMAX) (hy : y ≤ IMAX) :
    ((IMAX ≤ x ∨ IMAX ≤ y) → satAdd x y = IMAX ∧ ¬ satAdd x y < IMAX ∧ 0 ≤ satAdd x y) ∧
    ((IMAXH ≤ x ∨ IMAXH ≤ y) → sat2 x y = IMAX ∧ ¬ sat2 x y < IMAX ∧ 0 ≤ sat2 x y) := by
  constructor
  · intro h
    have hx2 : x = IMAX ∨ y = IMAX := by
      rcases h with h | h
      · exact Or.inl (le_antisymm hx h)
      · exact Or.inr (le_antisymm hy h)
    have hs : satAdd x y = IMAX := by
      unfold satAdd
      simp [hx2]
    refine ⟨hs, by rw [hs]; exact lt_irrefl _, by rw [hs]; decide⟩
  · intro h
    have hs : sat2 x y = IMAX := by
      unfold sat2
      simp [h]
    refine ⟨hs, by rw [hs]; exact lt_irrefl _, by rw [hs]; decide⟩

/-- Witness for satAdd_saturates at x = INT_MAX, y = 0. -/

theorem satAdd_saturates_witness :
    satAdd IMAX 0 = IMAX ∧ sat2 IMAX 0 = IMAX :=
  ⟨((satAdd_saturates IMAX 0 (by decide) (by decide)).1 (Or.inl le_rfl)).1,
   ((satAdd_saturates IMAX 0 (by decide) (by decide)).2 (Or.inl (by decide))).1⟩

/-- Claim C1: the AVX2 matmul kernel diverges from the naive scalar
triple loop.  At M = 1, N = 16, K = 8 with all-ones operands and a
zeroed output, the scalar loop puts 16 (the N-term dot product) into
cell (0,0), while the AVX2 kernel stores 2: its d loop steps by 8
while broadcasting only A[i][d] for d = 0, 8, so the stored lane sums
only every eighth term, exactly as its own comment
Res[i][j] = sum(A[i][d] * B[d][j]) says it should not. -/

theorem matmulVec_not_dotproduct :
    matmul 1 16 8 oneMat oneMat zeroBuf 0 = 16 ∧
      matmulVec 1 16 8 oneMat oneMat zeroBuf 0 = 2 ∧ (2 : ℤ) ≠ 16 := by
  refine ⟨by decide, by decide, by decide⟩

/-- Claim C9: on the concrete n = 4 scenario matrix, both APSP
variants produce exactly the expected shortest-distance matrix
[[0,3,4,6],[3,0,1,3],[4,1,0,2],[6,3,2,0]]. -/

theorem FloyD_concrete_n4 :
    (List.range 16).map (FloyD zeroBuf dmat4 4) =
        [0, 3, 4, 6, 3, 0, 1, 3, 4, 1, 0, 2, 6, 3, 2, 0] ∧
      (List.range 16).map (FloyD2 zeroBuf dmat4 4) =
        [0, 3, 4, 6, 3, 0, 1, 3, 4, 1, 0, 2, 6, 3, 2, 0] := by
  refine ⟨by decide, by decide⟩

/-- Claim C4: the parallel-for on the pivot loop admits executions
with no barrier between pivots, and they compute wrong results.  The
schedule badSched is a legal interleaving of the per-pivot row
sequences (each pivot runs its rows in order) in which row 0 of pivot
2 executes before pivot 1 starts; on the directed unit chain
0 -> 1 -> 2 -> 3 it leaves r[0][3] at the sentinel, while the
barriered (sequential) execution - and the kernel under sequential
semantics - computes the correct distance 3. -/

theorem pivot_barrier_violated :
    isInterleaving 4 badSched ∧ ¬ pivotOrdered badSched ∧
      pivotOrdered (seqSched 4) ∧
      FloyD zeroBuf chain4 4 3 = 3 ∧
      execSched 4 (seqSched 4) (copyPhase zeroBuf chain4 4) 3 = 3 ∧
      execSched 4 badSched (copyPhase zeroBuf chain4 4) 3 = IMAX ∧
      (3 : ℤ) ≠ IMAX := by
  refine ⟨by decide, by decide, by decide, by decide, by decide, by decide, by decide⟩

/-- Claim C5, counterexample: the scalar matmul kernel accumulates
with += and therefore does depend on the initial contents of Res: at
M = N = K = 1 with one-valued operands it yields 6 from an output
buffer holding 5 and 1 from a zeroed output buffer. -/

theorem matmul_requires_prezero :
    matmul 1 1 1 oneMat oneMat fiveBuf 0 = 6 ∧
      matmul 1 1 1 oneMat oneMat zeroBuf 0 = 1 ∧ (6 : ℤ) ≠ 1 := by
  refine ⟨by decide, by decide, by decide⟩

/-- Claim C7, counterexample: dNonIdem is symmetric with zero diagonal
and non-negative entries, yet FloyD is not idempotent on it: the first
run wraps 3*2^29 + 3*2^29 to -2^30 in column 2, and only a second run
propagates the wrapped negative value into cell (0,0), which moves
from 0 to -2^31. -/

theorem FloyD_not_idempotent :
    (∀ i ∈ Finset.range 3, ∀ j ∈ Finset.range 3,
        0 ≤ dNonIdem (i * 3 + j) ∧ dNonIdem (i * 3 + j) ≤ IMAX ∧
          dNonIdem (i * 3 + j) = dNonIdem (j * 3 + i)) ∧
      (∀ i ∈ Finset.range 3, dNonIdem (i * 3 + i) = 0) ∧
      FloyD zeroBuf dNonIdem 3 0 = 0 ∧
      FloyD zeroBuf (FloyD zeroBuf dNonIdem 3) 3 0 = -(2 ^ 31) ∧
      (0 : ℤ) ≠ -(2 ^ 31) := by
  refine ⟨by decide, by decide, by decide, by decide, by decide⟩

/-- Claim C8, counterexample: the lane/tail split of the AVX2 matmul
kernel does not reproduce the lane-width-agnostic scalar reference at
a dimension that is not a multiple of the lane width: at N = 9 (with
M = 1, K = 8, all-ones operands, zeroed output) the scalar loop gives
9 and the lane/tail kernel gives 2 in cell (0,0). -/

theorem matmulVec_tail_cex :
    ¬ (8 ∣ 9) ∧
      matmul 1 9 8 oneMat oneMat zeroBuf 0 = 9 ∧
      matmulVec 1 9 8 oneMat oneMat zeroBuf 0 = 2 ∧ (9 : ℤ) ≠ 2 := by
  refine ⟨by decide, by decide, by decide, by decide⟩

/-- Pointwise bound for folded passes: if every iteration of f only
ever lowers cells, so does the whole fold. -/

theorem loopN_le (f : ℕ → (ℕ → ℤ) → (ℕ → ℤ))
    (h : ∀ m s c, f m s c ≤ s c) :
    ∀ (M : ℕ) (s : ℕ → ℤ) (c : ℕ), loopN f M s c ≤ s c := by
  intro M
  induction M with
  | zero => intro s c; exact le_rfl
  | succ m ih =>
    intro s c
    calc loopN f (m + 1) s c = f m (loopN f m s) c := rfl
    _ ≤ loopN f m s c := h m (loopN f m s) c
    _ ≤ s c := ih s c

/-- Every single scalar relaxation lowers at most the written cell and
leaves the rest; in particular no cell increases. -/

theorem fwStep_le (n k i j : ℕ) (s : ℕ → ℤ) (c : ℕ) : fwStep n k i j s c ≤ s c := by
  unfold fwStep upd
  by_cases h : c = i * n + j
  · simp only [h, if_pos rfl]
    exact min_le_left _ _
  · simp only [if_neg h]
    exact le_rfl

/-- Every AVX2 block stores the lanewise min with the previous
contents, so no cell increases. -/

theorem fw2Block_le (n k i : ℕ) (x0 : ℤ) (t : ℕ) (s : ℕ → ℤ) (c : ℕ) :
    fw2Block n k i x0 t s c ≤ s c := by
  unfold fw2Block
  by_cases h : i * n + 8 * t ≤ c ∧ c < i * n + 8 * t + 8
  · simp only [if_pos h]
    exact min_le_left _ _
  · simp only [if_neg h]
    exact le_rfl

/-- Every AVX2 scalar-tail relaxation lowers at most the written
cell. -/

theorem fw2Tail_le (n k i j : ℕ) (s : ℕ → ℤ) (c : ℕ) : fw2Tail n k i j s c ≤ s c := by
  unfold fw2Tail upd
  by_cases h : c = i * n + j
  · simp only [h, if_pos rfl]
    exact min_le_left _ _
  · simp only [if_neg h]
    exact le_rfl

/-- Claim C10: the relaxation phase is monotone non-increasing.  Every
individual update of either APSP variant writes min(previous, z) -
per scalar step, per AVX2 block, per AVX2 tail step - hence every row
pass, every pivot pass, and the whole relaxation phase never increase
any cell above its value after the copy phase. -/

theorem relaxation_monotone :
    ∀ (n k i j : ℕ) (x0 : ℤ) (t : ℕ) (s : ℕ → ℤ) (c : ℕ) (r d : ℕ → ℤ),
      fwStep n k i j s c ≤ s c ∧
      fw2Block n k i x0 t s c ≤ s c ∧
      fw2Tail n k i j s c ≤ s c ∧
      fwRow n k i s c ≤ s c ∧
      fw2Row n k i s c ≤ s c ∧
      fwPivot n k s c ≤ s c ∧
      fw2Pivot n k s c ≤ s c ∧
      FloyD r d n c ≤ copyPhase r d n c ∧
      FloyD2 r d n c ≤ copyPhase r d n c := by
  intro n k i j x0 t s c r d
  have hRow : ∀ k i s c, fwRow n k i s c ≤ s c := fun k i s c =>
    loopN_le _ (fun m u x => fwStep_le n k i m u x) n s c
  have hRow2 : ∀ k i s c, fw2Row n k i s c ≤ s c := by
    intro k i s c
    unfold fw2Row
    calc loopN (fun m u => fw2Tail n k i (8 * (n / 8) + m) u) (n - 8 * (n / 8))
          (loopN (fun t u => fw2Block n k i (s (i * n + k)) t u) (n / 8) s) c
        ≤ loopN (fun t u => fw2Block n k i (s (i * n + k)) t u) (n / 8) s c :=
          loopN_le _ (fun m u x => fw2Tail_le n k i (8 * (n / 8) + m) u x) _ _ c
      _ ≤ s c := loopN_le _ (fun m u x => fw2Block_le n k i _ m u x) _ s c
  have hPiv : ∀ k s c, fwPivot n k s c ≤ s c := fun k s c =>
    loopN_le _ (fun m u x => hRow k m u x) n s c
  have hPiv2 : ∀ k s c, fw2Pivot n k s c ≤ s c := fun k s c =>
    loopN_le _ (fun m u x => hRow2 k m u x) n s c
  exact ⟨fwStep_le n k i j s c, fw2Block_le n k i x0 t s c, fw2Tail_le n k i j s c,
    hRow k i s c, hRow2 k i s c, hPiv k s c, hPiv2 k s c,
    loopN_le _ (fun m u x => hPiv m u x) n _ c,
    loopN_le _ (fun m u x => hPiv2 m u x) n _ c⟩

/-! ## Claim C5: the AVX2 matmul output does not depend on the initial
contents of Res

In the AVX2 kernel the scalar remainder loop is dead (the vector loop
exits with d equal to the first multiple of 8 at least N), and each
(i, j) iteration overwrites cell i*K+j with lane 0 of an accumulator
built from zero; no later iteration writes any cell at or below
i*K+j.  Hence the final value of every in-range cell is a function of
A and B alone. -/

/-- The scalar remainder of the AVX2 matmul runs zero iterations. -/

theorem mmTail_count (N : ℕ) : N - 8 * ((N + 7) / 8) = 0 := by
  have h := Nat.div_add_mod (N + 7) 8
  have h2 : (N + 7) % 8 < 8 := Nat.mod_lt _ (by norm_num)
  omega

/-- Closed form of one AVX2 matmul iteration: exactly the 8-lane
store, since the scalar remainder loop runs zero iterations. -/

theorem mmVecCell_eq (N K : ℕ) (A B : ℕ → ℤ) (i j : ℕ) (s : ℕ → ℤ) :
    mmVecCell N K A B i j s = fun c =>
      if i * K + j ≤ c ∧ c < i * K + j + 8 then
        mmLanes N K A B i j ((N + 7) / 8) (c - (i * K + j))
      else s c := by
  unfold mmVecCell
  rw [mmTail_count N]
  rfl

/-- An AVX2 matmul iteration leaves every cell strictly below its
store window unchanged. -/

theorem mmVecCell_preserve (N K : ℕ) (A B : ℕ → ℤ) (i j : ℕ) (s : ℕ → ℤ)
    (c : ℕ) (hc : c < i * K + j) :
    mmVecCell N K A B i j s c = s c := by
  rw [mmVecCell_eq]
  have h : ¬ (i * K + j ≤ c ∧ c < i * K + j + 8) := by omega
  simp only [h, if_false]

/-- An AVX2 matmul iteration stores lane 0 of the fresh accumulator
into its own cell. -/

theorem mmVecCell_value (N K : ℕ) (A B : ℕ → ℤ) (i j : ℕ) (s : ℕ → ℤ) :
    mmVecCell N K A B i j s (i * K + j) = mmLanes N K A B i j ((N + 7) / 8) 0 := by
  rw [mmVecCell_eq]
  have h : i * K + j ≤ i * K + j ∧ i * K + j < i * K + j + 8 := ⟨le_rfl, by omega⟩
  show (if i * K + j ≤ i * K + j ∧ i * K + j < i * K + j + 8 then
      mmLanes N K A B i j ((N + 7) / 8) (i * K + j - (i * K + j))
    else s (i * K + j)) = mmLanes N K A B i j ((N + 7) / 8) 0
  rw [if_pos h, Nat.sub_self]

/-- A row of the AVX2 matmul leaves every cell below the row
unchanged. -/

theorem mmRow_preserve (N K : ℕ) (A B : ℕ → ℤ) (i : ℕ) (s : ℕ → ℤ)
    (m : ℕ) (c : ℕ) (hc : c < i * K) :
    loopN (fun j t => mmVecCell N K A B i j t) m s c = s c := by
  induction m with
  | zero => rfl
  | succ m ih =>
    have hstep : mmVecCell N K A B i m
        (loopN (fun j t => mmVecCell N K A B i j t) m s) c =
        loopN (fun j t => mmVecCell N K A B i j t) m s c :=
      mmVecCell_preserve N K A B i m _ c (by omega)
    calc loopN (fun j t => mmVecCell N K A B i j t) (m + 1) s c
        = mmVecCell N K A B i m (loopN (fun j t => mmVecCell N K A B i j t) m s) c := rfl
      _ = loopN (fun j t => mmVecCell N K A B i j t) m s c := hstep
      _ = s c := ih

/-- Within a row of the AVX2 matmul, cell (i, j) ends at lane 0 of the
accumulator of its own iteration, whatever the incoming state. -/

theorem mmRow_value (N K : ℕ) (A B : ℕ → ℤ) (i : ℕ) (s : ℕ → ℤ) :
    ∀ (m j : ℕ), j < m →
      loopN (fun x t => mmVecCell N K A B i x t) m s (i * K + j) =
        mmLanes N K A B i j ((N + 7) / 8) 0 := by
  intro m
  induction m with
  | zero => intro j hj; omega
  | succ m ih =>
    intro j hj
    rcases Nat.lt_or_ge j m with hjm | hjm
    · have hstep : mmVecCell N K A B i m
          (loopN (fun x t => mmVecCell N K A B i x t) m s) (i * K + j) =
          loopN (fun x t => mmVecCell N K A B i x t) m s (i * K + j) :=
        mmVecCell_preserve N K A B i m _ _ (by omega)
      calc loopN (fun x t => mmVecCell N K A B i x t) (m + 1) s (i * K + j)
          = mmVecCell N K A B i m
              (loopN (fun x t => mmVecCell N K A B i x t) m s) (i * K + j) := rfl
        _ = loopN (fun x t => mmVecCell N K A B i x t) m s (i * K + j) := hstep
        _ = mmLanes N K A B i j ((N + 7) / 8) 0 := ih j hjm
    · have hjeq : j = m := by omega
      subst hjeq
      exact mmVecCell_value N K A B i j _

/-- Every in-range output cell of the AVX2 matmul equals lane 0 of the
accumulator of its (i, j) iteration: a function of A, B, N, K only. -/

theorem matmulVec_value (N K : ℕ) (A B : ℕ → ℤ) (res : ℕ → ℤ) (j : ℕ) (hj : j < K) :
    ∀ (Mm i : ℕ), i < Mm →
      matmulVec Mm N K A B res (i * K + j) = mmLanes N K A B i j ((N + 7) / 8) 0 := by
  intro Mm
  induction Mm with
  | zero => intro i hi; omega
  | succ m ih =>
    intro i hi
    show loopN (fun i s => loopN (fun x t => mmVecCell N K A B i x t) K s) (m + 1) res
        (i * K + j) = mmLanes N K A B i j ((N + 7) / 8) 0
    rcases Nat.lt_or_ge i m with him | him
    · have hcell : i * K + j < m * K := by
        have h1 : (i + 1) * K = i * K + K := by rw [Nat.add_mul, Nat.one_mul]
        have h2 : (i + 1) * K ≤ m * K := Nat.mul_le_mul_right K (by omega)
        omega
      have hstep :
          loopN (fun x t => mmVecCell N K A B m x t) K
            (loopN (fun i s => loopN (fun x t => mmVecCell N K A B i x t) K s) m res)
            (i * K + j) =
          loopN (fun i s => loopN (fun x t => mmVecCell N K A B i x t) K s) m res
            (i * K + j) :=
        mmRow_preserve N K A B m _ K _ hcell
      calc loopN (fun i s => loopN (fun x t => mmVecCell N K A B i x t) K s) (m + 1) res
            (i * K + j)
          = loopN (fun x t => mmVecCell N K A B m x t) K
              (loopN (fun i s => loopN (fun x t => mmVecCell N K A B i x t) K s) m res)
              (i * K + j) := rfl
        _ = loopN (fun i s => loopN (fun x t => mmVecCell N K A B i x t) K s) m res
              (i * K + j) := hstep
        _ = mmLanes N K A B i j ((N + 7) / 8) 0 := ih i him
    · have hieq : i = m := by omega
      subst hieq
      exact mmRow_value N K A B i _ K j hj

/-- Claim C5, amended to the variant the property actually holds of:
the AVX2 matmul kernel (src/unnamed/part_000) computes a fresh
accumulator per iteration and stores it, so the final value of every
in-range output cell is independent of the contents of Res before the
call; the scalar kernel (src/matmul.cpp) accumulates with += and does
require a pre-zeroed Res. -/

theorem matmulVec_independent_of_res (M N K : ℕ) (A B res1 res2 : ℕ → ℤ)
    (i j : ℕ) (hi : i < M) (hj : j < K) :
    matmulVec M N K A B res1 (i * K + j) = matmulVec M N K A B res2 (i * K + j) := by
  rw [matmulVec_value N K A B res1 j hj M i hi, matmulVec_value N K A B res2 j hj M i hi]

/-- Witness for matmulVec_independent_of_res at M = 1, N = 3, K = 2,
cell (0, 1), with initial buffers holding 5 and 0 everywhere. -/

theorem matmulVec_independent_of_res_witness :
    matmulVec 1 3 2 oneMat oneMat fiveBuf (0 * 2 + 1) =
      matmulVec 1 3 2 oneMat oneMat zeroBuf (0 * 2 + 1) :=
  matmulVec_independent_of_res 1 3 2 oneMat oneMat fiveBuf zeroBuf 0 1
    (by decide) (by decide)

/-! ## Claim C8: lane/tail split of the AVX2 APSP kernel versus the
scalar reference

On buffers whose in-range cells lie in [0, INT_MAX] the AVX2 row pass
and the scalar row pass compute the same pointwise map: within one
row pass neither the broadcast operand r[i*n+k] nor any pivot-row
operand r[k*n+j] can change (each would need a negative diagonal
contribution, impossible for non-negative cells), so preloading x
once per row and loading y and curr blockwise is equivalent to fresh
scalar reads. -/

/-- Wrapping is the identity on [0, 2^31). -/

theorem wrap32_id (z : ℤ) (h0 : 0 ≤ z) (h1 : z < 2 ^ 31) : wrap32 z = z := by
  unfold wrap32
  have h : (z + 2 ^ 31) % 2 ^ 32 = z + 2 ^ 31 := Int.emod_eq_of_lt (by omega) (by omega)
  omega

/-- The AVX2 combine of in-range non-negative operands is at least its
left operand. -/

theorem sat2_ge_left (x y : ℤ) (hx0 : 0 ≤ x) (hxI : x ≤ IMAX) (hy0 : 0 ≤ y) :
    x ≤ sat2 x y := by
  unfold sat2
  by_cases h : IMAXH ≤ x ∨ IMAXH ≤ y
  · rw [if_pos h]; exact hxI
  · rw [if_neg h]
    push_neg at h
    have hlt : x + y < 2 ^ 31 := by
      have hx : x < IMAXH := h.1
      have hy : y < IMAXH := h.2
      have : IMAXH = 1073741823 := by decide
      omega
    rw [wrap32_id (x + y) (by omega) hlt]
    omega

/-- The AVX2 combine of in-range non-negative operands is at least its
right operand. -/

theorem sat2_ge_right (x y : ℤ) (hx0 : 0 ≤ x) (hy0 : 0 ≤ y) (hyI : y ≤ IMAX) :
    y ≤ sat2 x y := by
  unfold sat2
  by_cases h : IMAXH ≤ x ∨ IMAXH ≤ y
  · rw [if_pos h]; exact hyI
  · rw [if_neg h]
    push_neg at h
    have hlt : x + y < 2 ^ 31 := by
      have : IMAXH = 1073741823 := by decide
      omega
    rw [wrap32_id (x + y) (by omega) hlt]
    omega

/-- The AVX2 combine of in-range non-negative operands stays in
[0, INT_MAX]. -/

theorem sat2_mem (x y : ℤ) (hx0 : 0 ≤ x) (hxI : x ≤ IMAX) (hy0 : 0 ≤ y) (hyI : y ≤ IMAX) :
    0 ≤ sat2 x y ∧ sat2 x y ≤ IMAX := by
  unfold sat2
  by_cases h : IMAXH ≤ x ∨ IMAXH ≤ y
  · rw [if_pos h]; exact ⟨by decide, le_rfl⟩
  · rw [if_neg h]
    push_neg at h
    have hH : IMAXH = 1073741823 := by decide
    have hI : IMAX = 2147483647 := by decide
    have hlt : x + y < 2 ^ 31 := by omega
    rw [wrap32_id (x + y) (by omega) hlt]
    constructor <;> omega

/-- In-range cells of distinct rows occupy disjoint flat windows. -/

theorem row_disjoint (n i k J : ℕ) (hik : i ≠ k) (hJ : J < n) :
    k * n + J < i * n ∨ i * n + n ≤ k * n + J := by
  rcases Nat.lt_or_ge k i with h | h
  · left
    have h1 : (k + 1) * n ≤ i * n := Nat.mul_le_mul_right n (by omega)
    have h2 : (k + 1) * n = k * n + n := by rw [Nat.add_mul, Nat.one_mul]
    omega
  · right
    have hik2 : i < k := by omega
    have h1 : (i + 1) * n ≤ k * n := Nat.mul_le_mul_right n (by omega)
    have h2 : (i + 1) * n = i * n + n := by rw [Nat.add_mul, Nat.one_mul]
    omega

/-- A flat cell of row i2 lies in the window of row i exactly when the
rows coincide. -/

theorem row_mem (n i i2 j2 : ℕ) (hj2 : j2 < n) :
    (i * n ≤ i2 * n + j2 ∧ i2 * n + j2 < i * n + n) ↔ i2 = i := by
  constructor
  · intro h
    by_contra hne
    rcases row_disjoint n i i2 j2 (Ne.symm hne) hj2 with hlt | hge <;> omega
  · intro h
    subst h
    omega

/-- Zero processed columns change nothing. -/

theorem fwPartial_zero (n k i : ℕ) (s : ℕ → ℤ) : fwPartial n k i s 0 = s := by
  funext c
  unfold fwPartial
  have h : ¬ (i * n ≤ c ∧ c < i * n + 0) := by omega
  rw [if_neg h]

/-- During a row pass over an in-bounds state the broadcast operand
cell (i, k) keeps its entry value: its own relaxation candidate
sat2(x, diagonal) is no smaller than x. -/

theorem fwPartial_broadcast (n k i : ℕ) (s : ℕ → ℤ) (J : ℕ)
    (hk : k < n) (hi : i < n) (hInv : InBounds s n) :
    fwPartial n k i s J (i * n + k) = s (i * n + k) := by
  unfold fwPartial
  by_cases h : i * n ≤ i * n + k ∧ i * n + k < i * n + J
  · rw [if_pos h]
    have hsub : i * n + k - i * n = k := by omega
    rw [hsub]
    have hik := hInv i k hi hk
    have hkk := hInv k k hk hk
    exact min_eq_left (sat2_ge_left _ _ hik.1 hik.2 hkk.1)
  · rw [if_neg h]

/-- During a row pass over an in-bounds state every pivot-row cell
(k, j) keeps its entry value: if the pass writes row k at all then
i = k and the candidate sat2(diagonal, y) is no smaller than y. -/

theorem fwPartial_pivotrow (n k i : ℕ) (s : ℕ → ℤ) (J j : ℕ)
    (hk : k < n) (hi : i < n) (hj : j < n) (hJn : J ≤ n) (hInv : InBounds s n) :
    fwPartial n k i s J (k * n + j) = s (k * n + j) := by
  unfold fwPartial
  by_cases hik : i = k
  · subst hik
    by_cases h : i * n ≤ i * n + j ∧ i * n + j < i * n + J
    · rw [if_pos h]
      have hsub : i * n + j - i * n = j := by omega
      rw [hsub]
      have hij := hInv i j hi hj
      have hii := hInv i i hi hi
      exact min_eq_left (sat2_ge_right _ _ hii.1 hij.1 hij.2)
    · rw [if_neg h]
  · have hik2 : i ≠ k := hik
    have hd := row_disjoint n i k j (fun he => hik2 he) hj
    have h : ¬ (i * n ≤ k * n + j ∧ k * n + j < i * n + J) := by
      rcases hd with h1 | h1 <;> omega
    rw [if_neg h]

/-- One scalar-tail relaxation at column J advances the pointwise
target by one column. -/

theorem fw2Tail_partial (n k i : ℕ) (s : ℕ → ℤ) (J : ℕ)
    (hk : k < n) (hi : i < n) (hJ : J < n) (hInv : InBounds s n) :
    fw2Tail n k i J (fwPartial n k i s J) = fwPartial n k i s (J + 1) := by
  funext c
  unfold fw2Tail upd
  by_cases hc : c = i * n + J
  · subst hc
    rw [if_pos rfl]
    have hcur : fwPartial n k i s J (i * n + J) = s (i * n + J) := by
      unfold fwPartial
      have h : ¬ (i * n ≤ i * n + J ∧ i * n + J < i * n + J) := by omega
      rw [if_neg h]
    have hx := fwPartial_broadcast n k i s J hk hi hInv
    have hy := fwPartial_pivotrow n k i s J J hk hi hJ (by omega) hInv
    rw [hcur, hx, hy]
    unfold fwPartial
    have h : i * n ≤ i * n + J ∧ i * n + J < i * n + (J + 1) := by omega
    rw [if_pos h]
    have hsub : i * n + J - i * n = J := by omega
    rw [hsub]
  · rw [if_neg hc]
    unfold fwPartial
    by_cases h1 : i * n ≤ c ∧ c < i * n + J
    · have h2 : i * n ≤ c ∧ c < i * n + (J + 1) := by omega
      rw [if_pos h1, if_pos h2]
    · have h2 : ¬ (i * n ≤ c ∧ c < i * n + (J + 1)) := by omega
      rw [if_neg h1, if_neg h2]

/-- One 8-lane block at block index t advances the pointwise target by
eight columns: every load of the block still sees the row-entry
state. -/

theorem fw2Block_partial (n k i : ℕ) (s : ℕ → ℤ) (t : ℕ)
    (hk : k < n) (hi : i < n) (ht : t < n / 8) (hInv : InBounds s n) :
    fw2Block n k i (s (i * n + k)) t (fwPartial n k i s (8 * t)) =
      fwPartial n k i s (8 * t + 8) := by
  have h8 : 8 * (n / 8) ≤ n := by omega
  have hwin : 8 * t + 8 ≤ n := by omega
  funext c
  unfold fw2Block
  by_cases hw : i * n + 8 * t ≤ c ∧ c < i * n + 8 * t + 8
  · rw [if_pos hw]
    have hj : c - i * n < n := by omega
    have hcur : fwPartial n k i s (8 * t) c = s c := by
      unfold fwPartial
      have h : ¬ (i * n ≤ c ∧ c < i * n + 8 * t) := by omega
      rw [if_neg h]
    have hy : fwPartial n k i s (8 * t) (k * n + (c - i * n)) = s (k * n + (c - i * n)) :=
      fwPartial_pivotrow n k i s (8 * t) (c - i * n) hk hi hj (by omega) hInv
    rw [hcur, hy]
    unfold fwPartial
    have h : i * n ≤ c ∧ c < i * n + (8 * t + 8) := by omega
    rw [if_pos h]
  · rw [if_neg hw]
    unfold fwPartial
    by_cases h1 : i * n ≤ c ∧ c < i * n + 8 * t
    · have h2 : i * n ≤ c ∧ c < i * n + (8 * t + 8) := by omega
      rw [if_pos h1, if_pos h2]
    · have h2 : ¬ (i * n ≤ c ∧ c < i * n + (8 * t + 8)) := by omega
      rw [if_neg h1, if_neg h2]

/-- The AVX2 row pass equals the pointwise target over the whole
row. -/

theorem fw2Row_eq (n k i : ℕ) (s : ℕ → ℤ)
    (hk : k < n) (hi : i < n) (hInv : InBounds s n) :
    fw2Row n k i s = fwPartial n k i s n := by
  have h8 : 8 * (n / 8) ≤ n := by omega
  have hblocks : ∀ t, t ≤ n / 8 →
      loopN (fun t u => fw2Block n k i (s (i * n + k)) t u) t s =
        fwPartial n k i s (8 * t) := by
    intro t
    induction t with
    | zero => intro _; exact (fwPartial_zero n k i s).symm
    | succ t ih =>
      intro ht
      have hstep := fw2Block_partial n k i s t hk hi (by omega) hInv
      calc loopN (fun t u => fw2Block n k i (s (i * n + k)) t u) (t + 1) s
          = fw2Block n k i (s (i * n + k)) t
              (loopN (fun t u => fw2Block n k i (s (i * n + k)) t u) t s) := rfl
        _ = fw2Block n k i (s (i * n + k)) t (fwPartial n k i s (8 * t)) := by
              rw [ih (by omega)]
        _ = fwPartial n k i s (8 * t + 8) := hstep
        _ = fwPartial n k i s (8 * (t + 1)) := by ring_nf
  have htail : ∀ m, 8 * (n / 8) + m ≤ n →
      loopN (fun m u => fw2Tail n k i (8 * (n / 8) + m) u) m
          (fwPartial n k i s (8 * (n / 8))) =
        fwPartial n k i s (8 * (n / 8) + m) := by
    intro m
    induction m with
    | zero => intro _; rfl
    | succ m ih =>
      intro hm
      have hstep := fw2Tail_partial n k i s (8 * (n / 8) + m) hk hi (by omega) hInv
      calc loopN (fun m u => fw2Tail n k i (8 * (n / 8) + m) u) (m + 1)
            (fwPartial n k i s (8 * (n / 8)))
          = fw2Tail n k i (8 * (n / 8) + m)
              (loopN (fun m u => fw2Tail n k i (8 * (n / 8) + m) u) m
                (fwPartial n k i s (8 * (n / 8)))) := rfl
        _ = fw2Tail n k i (8 * (n / 8) + m) (fwPartial n k i s (8 * (n / 8) + m)) := by
              rw [ih (by omega)]
        _ = fwPartial n k i s (8 * (n / 8) + m + 1) := hstep
  show loopN (fun m u => fw2Tail n k i (8 * (n / 8) + m) u) (n - 8 * (n / 8))
      (loopN (fun t u => fw2Block n k i (s (i * n + k)) t u) (n / 8) s) =
    fwPartial n k i s n
  rw [hblocks (n / 8) le_rfl]
  have hfin := htail (n - 8 * (n / 8)) (by omega)
  have heq : 8 * (n / 8) + (n - 8 * (n / 8)) = n := by omega
  rw [heq] at hfin
  exact hfin

/-- The scalar reference row pass equals the same pointwise target. -/

theorem fw2RowScalar_eq (n k i : ℕ) (s : ℕ → ℤ)
    (hk : k < n) (hi : i < n) (hInv : InBounds s n) :
    fw2RowScalar n k i s = fwPartial n k i s n := by
  have h : ∀ m, m ≤ n →
      loopN (fun j t => fw2Tail n k i j t) m s = fwPartial n k i s m := by
    intro m
    induction m with
    | zero => intro _; exact (fwPartial_zero n k i s).symm
    | succ m ih =>
      intro hm
      calc loopN (fun j t => fw2Tail n k i j t) (m + 1) s
          = fw2Tail n k i m (loopN (fun j t => fw2Tail n k i j t) m s) := rfl
        _ = fw2Tail n k i m (fwPartial n k i s m) := by rw [ih (by omega)]
        _ = fwPartial n k i s (m + 1) := fw2Tail_partial n k i s m hk hi (by omega) hInv
  exact h n le_rfl

/-- The pointwise row target keeps all in-range cells in
[0, INT_MAX]. -/

theorem fwPartial_inbounds (n k i : ℕ) (s : ℕ → ℤ) (J : ℕ)
    (hk : k < n) (hi : i < n) (hJn : J ≤ n) (hInv : InBounds s n) :
    InBounds (fwPartial n k i s J) n := by
  intro i2 j2 hi2 hj2
  unfold fwPartial
  by_cases h : i * n ≤ i2 * n + j2 ∧ i2 * n + j2 < i * n + J
  · rw [if_pos h]
    have hmem : i * n ≤ i2 * n + j2 ∧ i2 * n + j2 < i * n + n := ⟨h.1, by omega⟩
    have hi2i : i2 = i := (row_mem n i i2 j2 hj2).mp hmem
    subst hi2i
    have hsub : i2 * n + j2 - i2 * n = j2 := by omega
    rw [hsub]
    have hb := hInv i2 j2 hi2 hj2
    have hx := hInv i2 k hi2 hk
    have hy := hInv k j2 hk hj2
    have hs := sat2_mem _ _ hx.1 hx.2 hy.1 hy.2
    constructor
    · exact le_min hb.1 hs.1
    · exact le_trans (min_le_left _ _) hb.2
  · rw [if_neg h]
    exact hInv i2 j2 hi2 hj2

/-- Rows of the AVX2 pass and of the scalar reference transform equal
in-bounds states equally, and keep them in bounds. -/

theorem fw2Rows_eq (n k : ℕ) (hk : k < n) :
    ∀ (m : ℕ), m ≤ n → ∀ (s : ℕ → ℤ), InBounds s n →
      loopN (fun i t => fw2Row n k i t) m s =
          loopN (fun i t => fw2RowScalar n k i t) m s ∧
        InBounds (loopN (fun i t => fw2Row n k i t) m s) n := by
  intro m
  induction m with
  | zero => intro _ s hInv; exact ⟨rfl, hInv⟩
  | succ m ih =>
    intro hm s hInv
    obtain ⟨heq, hb⟩ := ih (by omega) s hInv
    have hrow := fw2Row_eq n k m _ hk (by omega) hb
    have hrowS := fw2RowScalar_eq n k m _ hk (by omega) hb
    constructor
    · calc loopN (fun i t => fw2Row n k i t) (m + 1) s
          = fw2Row n k m (loopN (fun i t => fw2Row n k i t) m s) := rfl
        _ = fwPartial n k m (loopN (fun i t => fw2Row n k i t) m s) n := hrow
        _ = fw2RowScalar n k m (loopN (fun i t => fw2Row n k i t) m s) := hrowS.symm
        _ = fw2RowScalar n k m (loopN (fun i t => fw2RowScalar n k i t) m s) := by rw [heq]
        _ = loopN (fun i t => fw2RowScalar n k i t) (m + 1) s := rfl
    · show InBounds (fw2Row n k m (loopN (fun i t => fw2Row n k i t) m s)) n
      rw [hrow]
      exact fwPartial_inbounds n k m _ n hk (by omega) le_rfl hb

/-- Pivot passes of the AVX2 kernel and of the scalar reference agree
on in-bounds states and preserve in-boundedness. -/

theorem fw2Pivots_eq (n : ℕ) :
    ∀ (m : ℕ), m ≤ n → ∀ (s : ℕ → ℤ), InBounds s n →
      loopN (fun k t => fw2Pivot n k t) m s =
          loopN (fun k t => fw2PivotScalar n k t) m s ∧
        InBounds (loopN (fun k t => fw2Pivot n k t) m s) n := by
  intro m
  induction m with
  | zero => intro _ s hInv; exact ⟨rfl, hInv⟩
  | succ m ih =>
    intro hm s hInv
    obtain ⟨heq, hb⟩ := ih (by omega) s hInv
    obtain ⟨hrows, hrowsb⟩ := fw2Rows_eq n m (by omega) n le_rfl _ hb
    constructor
    · calc loopN (fun k t => fw2Pivot n k t) (m + 1) s
          = fw2Pivot n m (loopN (fun k t => fw2Pivot n k t) m s) := rfl
        _ = fw2PivotScalar n m (loopN (fun k t => fw2Pivot n k t) m s) := hrows
        _ = fw2PivotScalar n m (loopN (fun k t => fw2PivotScalar n k t) m s) := by rw [heq]
        _ = loopN (fun k t => fw2PivotScalar n k t) (m + 1) s := rfl
    · exact hrowsb

/-- A row of the copy phase leaves cells below its window
unchanged. -/

theorem copyRow_preserve (d : ℕ → ℤ) (n i : ℕ) (s : ℕ → ℤ) (m c : ℕ) (hc : c < i * n) :
    loopN (fun j t => upd t (i * n + j) (d (i * n + j))) m s c = s c := by
  induction m with
  | zero => rfl
  | succ m ih =>
    show upd (loopN (fun j t => upd t (i * n + j) (d (i * n + j))) m s)
        (i * n + m) (d (i * n + m)) c = s c
    unfold upd
    have h : c ≠ i * n + m := by omega
    rw [if_neg h]
    exact ih

/-- A row of the copy phase installs d into each of its cells. -/

theorem copyRow_value (d : ℕ → ℤ) (n i : ℕ) (s : ℕ → ℤ) :
    ∀ (m j : ℕ), j < m →
      loopN (fun j t => upd t (i * n + j) (d (i * n + j))) m s (i * n + j) =
        d (i * n + j) := by
  intro m
  induction m with
  | zero => intro j hj; omega
  | succ m ih =>
    intro j hj
    show upd (loopN (fun j t => upd t (i * n + j) (d (i * n + j))) m s)
        (i * n + m) (d (i * n + m)) (i * n + j) = d (i * n + j)
    unfold upd
    by_cases hjm : j = m
    · subst hjm
      rw [if_pos rfl]
    · have h : i * n + j ≠ i * n + m := by omega
      rw [if_neg h]
      exact ih j (by omega)

/-- The copy phase makes every in-range cell of r a copy of d. -/

theorem copyPhase_value (r d : ℕ → ℤ) (n : ℕ) (i j : ℕ) (hi : i < n) (hj : j < n) :
    copyPhase r d n (i * n + j) = d (i * n + j) := by
  unfold copyPhase
  have main : ∀ m, i < m → m ≤ n →
      loopN (fun i s => loopN (fun j t => upd t (i * n + j) (d (i * n + j))) n s) m r
        (i * n + j) = d (i * n + j) := by
    intro m
    induction m with
    | zero => intro h _; omega
    | succ m ih =>
      intro him hmn
      show loopN (fun j t => upd t (m * n + j) (d (m * n + j))) n
          (loopN (fun i s => loopN (fun j t => upd t (i * n + j) (d (i * n + j))) n s) m r)
          (i * n + j) = d (i * n + j)
      rcases Nat.lt_or_ge i m with hlt | hge
      · have hc : i * n + j < m * n := by
          have h1 : (i + 1) * n = i * n + n := by rw [Nat.add_mul, Nat.one_mul]
          have h2 : (i + 1) * n ≤ m * n := Nat.mul_le_mul_right n (by omega)
          omega
        rw [copyRow_preserve d n m _ n _ hc]
        exact ih hlt (by omega)
      · have hieq : i = m := by omega
        subst hieq
        exact copyRow_value d n i _ n j hj
  exact main n hi le_rfl

/-- The copy phase produces an in-bounds state from an in-bounds input
matrix. -/

theorem copyPhase_inbounds (r d : ℕ → ℤ) (n : ℕ)
    (hrange : ∀ i ∈ Finset.range n, ∀ j ∈ Finset.range n,
        0 ≤ d (i * n + j) ∧ d (i * n + j) ≤ IMAX) :
    InBounds (copyPhase r d n) n := by
  intro i j hi hj
  rw [copyPhase_value r d n i j hi hj]
  exact hrange i (Finset.mem_range.mpr hi) j (Finset.mem_range.mpr hj)

/-- Claim C8, amended to the kernel whose lane/tail split is actually
faithful: for every dimension n, including every n that is not a
multiple of the lane width 8, and every input matrix with in-range
entries in [0, INT_MAX], the AVX2 Floyd-Warshall kernel
(vectorized main run of stride 8 plus scalar remainder of n mod 8
columns) agrees cell-for-cell with the lane-width-agnostic pure
scalar reference; the lane/tail split of the AVX2 matmul kernel does
not have this property (see its counterexample). -/

theorem FloyD2_lane_tail_eq_scalar (n : ℕ) (r d : ℕ → ℤ)
    (hnot8 : ¬ 8 ∣ n)
    (hrange : ∀ i ∈ Finset.range n, ∀ j ∈ Finset.range n,
        0 ≤ d (i * n + j) ∧ d (i * n + j) ≤ IMAX) :
    ∀ i ∈ Finset.range n, ∀ j ∈ Finset.range n,
      FloyD2 r d n (i * n + j) = FloyD2Scalar r d n (i * n + j) := by
  intro i hi j hj
  have hb := copyPhase_inbounds r d n hrange
  have h := (fw2Pivots_eq n n le_rfl (copyPhase r d n) hb).1
  show loopN (fun k s => fw2Pivot n k s) n (copyPhase r d n) (i * n + j) =
    loopN (fun k s => fw2PivotScalar n k s) n (copyPhase r d n) (i * n + j)
  rw [h]

/-- Witness for FloyD2_lane_tail_eq_scalar at n = 3 (not a multiple of
8) on a small valid matrix, cell (0, 1). -/

theorem FloyD2_lane_tail_eq_scalar_witness :
    FloyD2 zeroBuf (ofList [0, 5, IMAX, 5, 0, 2, IMAX, 2, 0]) 3 (0 * 3 + 1) =
      FloyD2Scalar zeroBuf (ofList [0, 5, IMAX, 5, 0, 2, IMAX, 2, 0]) 3 (0 * 3 + 1) :=
  FloyD2_lane_tail_eq_scalar 3 zeroBuf (ofList [0, 5, IMAX, 5, 0, 2, IMAX, 2, 0])
    (by decide) (by decide) 0 (by decide) 1 (by decide)

/-- Decoding a finite coded value gives the value back. -/

theorem ofW_coe (m : ℕ) : ofW ((m : ℕ) : ℕ∞) = (m : ℤ) := by
  unfold ofW
  rw [if_neg (by exact_mod_cast ENat.coe_ne_top m)]
  rw [ENat.toNat_coe]

/-- Decoding infinity gives the sentinel. -/

theorem ofW_top : ofW ⊤ = IMAX := by
  unfold ofW
  rw [if_pos rfl]

/-- Encode-decode roundtrip on in-range C values. -/

theorem ofW_toW (z : ℤ) (h0 : 0 ≤ z) (h1 : z ≤ IMAX) : ofW (toW z) = z := by
  unfold toW
  by_cases h : z = IMAX
  · rw [if_pos h, ofW_top, h]
  · rw [if_neg h, ofW_coe]
    exact Int.toNat_of_nonneg h0

/-- Decode-encode roundtrip away from the sentinel value. -/

theorem toW_ofW (x : ℕ∞) (h : x = ⊤ ∨ ∃ m : ℕ, (m : ℤ) < IMAX ∧ x = (m : ℕ∞)) :
    toW (ofW x) = x := by
  rcases h with h | ⟨m, hm, h⟩
  · rw [h, ofW_top]
    unfold toW
    rw [if_pos rfl]
  · rw [h, ofW_coe]
    unfold toW
    rw [if_neg (by omega)]
    rw [Int.toNat_natCast]

/-- Splitting a walk at a listed vertex splits its weight. -/

theorem wWeight_append (w : ℕ → ℕ → ℕ∞) (v j : ℕ) :
    ∀ (a : List ℕ) (i : ℕ) (b : List ℕ),
      wWeight w i (a ++ v :: b) j = wWeight w i a v + wWeight w v b j := by
  intro a
  induction a with
  | nil => intro i b; rfl
  | cons x a ih =>
    intro i b
    show w i x + wWeight w x (a ++ v :: b) j =
      (w i x + wWeight w x a v) + wWeight w v b j
    rw [ih x b, add_assoc]

/-- A walk from an out-of-range vertex weighs infinity. -/

theorem wWeight_top_left (d : ℕ → ℤ) (n : ℕ) :
    ∀ (l : List ℕ) (i j : ℕ), n ≤ i → wWeight (wOf d n) i l j = ⊤ := by
  intro l
  induction l with
  | nil =>
    intro i j hi
    show wOf d n i j = ⊤
    unfold wOf
    rw [if_neg (by omega)]
  | cons v l ih =>
    intro i j hi
    show wOf d n i v + wWeight (wOf d n) v l j = ⊤
    have h : wOf d n i v = ⊤ := by
      unfold wOf
      rw [if_neg (by omega)]
    rw [h, top_add]

/-- A walk to an out-of-range vertex weighs infinity. -/

theorem wWeight_top_right (d : ℕ → ℤ) (n : ℕ) :
    ∀ (l : List ℕ) (i j : ℕ), n ≤ j → wWeight (wOf d n) i l j = ⊤ := by
  intro l
  induction l with
  | nil =>
    intro i j hj
    show wOf d n i j = ⊤
    unfold wOf
    rw [if_neg (by omega)]
  | cons v l ih =>
    intro i j hj
    show wOf d n i v + wWeight (wOf d n) v l j = ⊤
    rw [ih v j hj, add_top]

/-- A walk through an out-of-range vertex weighs infinity. -/

theorem wWeight_top_mem (d : ℕ → ℤ) (n : ℕ) :
    ∀ (l : List ℕ) (i j v : ℕ), v ∈ l → n ≤ v → wWeight (wOf d n) i l j = ⊤ := by
  intro l
  induction l with
  | nil => intro i j v hv; exact absurd hv (List.not_mem_nil v)
  | cons u l ih =>
    intro i j v hv hvn
    rcases List.mem_cons.mp hv with hu | hu
    · subst hu
      show wOf d n i v + wWeight (wOf d n) v l j = ⊤
      rw [wWeight_top_left d n l v j hvn, add_top]
    · show wOf d n i u + wWeight (wOf d n) u l j = ⊤
      rw [ih u j v hu hvn, add_top]

/-- Rows at or past n of the reference relaxation are all
infinity. -/

theorem fwRef_top_left (d : ℕ → ℤ) (n : ℕ) :
    ∀ (k i j : ℕ), n ≤ i → fwRef (wOf d n) k i j = ⊤ := by
  intro k
  induction k with
  | zero =>
    intro i j hi
    show wOf d n i j = ⊤
    unfold wOf
    rw [if_neg (by omega)]
  | succ k ih =>
    intro i j hi
    show min (fwRef (wOf d n) k i j)
        (fwRef (wOf d n) k i k + fwRef (wOf d n) k k j) = ⊤
    rw [ih i j hi, ih i k hi, top_add, min_self]

/-- Columns at or past n of the reference relaxation are all
infinity. -/

theorem fwRef_top_right (d : ℕ → ℤ) (n : ℕ) :
    ∀ (k i j : ℕ), n ≤ j → fwRef (wOf d n) k i j = ⊤ := by
  intro k
  induction k with
  | zero =>
    intro i j hj
    show wOf d n i j = ⊤
    unfold wOf
    rw [if_neg (by omega)]
  | succ k ih =>
    intro i j hj
    show min (fwRef (wOf d n) k i j)
        (fwRef (wOf d n) k i k + fwRef (wOf d n) k k j) = ⊤
    rw [ih i j hj, ih k j hj, add_top, min_self]

/-- With a zero diagonal the reference relaxation keeps the diagonal
at zero. -/

theorem fwRef_diag (d : ℕ → ℤ) (n : ℕ)
    (hdiag : ∀ i ∈ Finset.range n, d (i * n + i) = 0) :
    ∀ (k v : ℕ), v < n → fwRef (wOf d n) k v v = 0 := by
  intro k
  induction k with
  | zero =>
    intro v hv
    show wOf d n v v = 0
    unfold wOf
    rw [if_pos ⟨hv, hv⟩, hdiag v (Finset.mem_range.mpr hv)]
    unfold toW
    rw [if_neg (by decide)]
    rfl
  | succ k ih =>
    intro v hv
    show min (fwRef (wOf d n) k v v)
        (fwRef (wOf d n) k v k + fwRef (wOf d n) k k v) = 0
    rw [ih v hv]
    exact min_eq_left (zero_le _)

/-- Relaxing at pivot k never changes column k (pivot-column
freeze). -/

theorem fwRef_freeze_col (d : ℕ → ℤ) (n : ℕ)
    (hdiag : ∀ i ∈ Finset.range n, d (i * n + i) = 0) (k i : ℕ) :
    fwRef (wOf d n) (k + 1) i k = fwRef (wOf d n) k i k := by
  show min (fwRef (wOf d n) k i k)
      (fwRef (wOf d n) k i k + fwRef (wOf d n) k k k) =
    fwRef (wOf d n) k i k
  rcases Nat.lt_or_ge k n with hk | hk
  · rw [fwRef_diag d n hdiag k k hk, add_zero, min_self]
  · rw [fwRef_top_right d n k i k hk, top_add, min_self]

/-- Relaxing at pivot k never changes row k (pivot-row freeze). -/

theorem fwRef_freeze_row (d : ℕ → ℤ) (n : ℕ)
    (hdiag : ∀ i ∈ Finset.range n, d (i * n + i) = 0) (k j : ℕ) :
    fwRef (wOf d n) (k + 1) k j = fwRef (wOf d n) k k j := by
  show min (fwRef (wOf d n) k k j)
      (fwRef (wOf d n) k k k + fwRef (wOf d n) k k j) =
    fwRef (wOf d n) k k j
  rcases Nat.lt_or_ge k n with hk | hk
  · rw [fwRef_diag d n hdiag k k hk, zero_add, min_self]
  · rw [fwRef_top_left d n k k j hk, add_top, min_self]

/-- Split a list at the last occurrence of a member. -/

theorem mem_split_last (v : ℕ) :
    ∀ (l : List ℕ), v ∈ l → ∃ a b : List ℕ, l = a ++ v :: b ∧ v ∉ b := by
  intro l
  induction l with
  | nil => intro h; exact absurd h (List.not_mem_nil v)
  | cons u t ih =>
    intro hv
    by_cases hvt : v ∈ t
    · obtain ⟨a, b, heq, hb⟩ := ih hvt
      exact ⟨u :: a, b, by rw [heq]; rfl, hb⟩
    · have hvu : v = u := by
        rcases List.mem_cons.mp hv with h | h
        · exact h
        · exact absurd h hvt
      subst hvu
      exact ⟨[], t, rfl, hvt⟩

/-- The reference relaxation after the first k pivots is a lower bound
on the weight of every walk with intermediate vertices below k. -/

theorem fwRef_le_weight (d : ℕ → ℤ) (n : ℕ)
    (hdiag : ∀ i ∈ Finset.range n, d (i * n + i) = 0) :
    ∀ (k : ℕ) (l : List ℕ) (i j : ℕ), (∀ v ∈ l, v < k) →
      fwRef (wOf d n) k i j ≤ wWeight (wOf d n) i l j := by
  intro k
  induction k with
  | zero =>
    intro l i j hl
    cases l with
    | nil => exact le_rfl
    | cons v l2 => exact absurd (hl v (List.mem_cons_self v l2)) (by omega)
  | succ k ihk =>
    have inner : ∀ (L : ℕ) (l : List ℕ), l.length ≤ L → ∀ i j : ℕ,
        (∀ v ∈ l, v < k + 1) →
        fwRef (wOf d n) (k + 1) i j ≤ wWeight (wOf d n) i l j := by
      intro L
      induction L with
      | zero =>
        intro l hl i j hmem
        have hnil : l = [] := List.length_eq_zero.mp (by omega)
        subst hnil
        calc fwRef (wOf d n) (k + 1) i j
            ≤ fwRef (wOf d n) k i j := min_le_left _ _
          _ ≤ wWeight (wOf d n) i [] j :=
              ihk [] i j (fun v hv => absurd hv (List.not_mem_nil v))
      | succ L ihL =>
        intro l hlen i j hmem
        by_cases hkl : k ∈ l
        · obtain ⟨a, b, heq, hkb⟩ := mem_split_last k l hkl
          subst heq
          rw [wWeight_append]
          have hla : a.length ≤ L := by
            have := List.length_append a (k :: b)
            simp only [List.length_cons] at this
            omega
          have h3 : fwRef (wOf d n) (k + 1) i k ≤ wWeight (wOf d n) i a k :=
            ihL a hla i k (fun v hv => hmem v (List.mem_append.mpr (Or.inl hv)))
          have h4 : fwRef (wOf d n) k k j ≤ wWeight (wOf d n) k b j := by
            refine ihk b k j (fun v hv => ?_)
            have hv1 := hmem v (List.mem_append.mpr (Or.inr (List.mem_cons.mpr (Or.inr hv))))
            have hvk : v ≠ k := fun he => hkb (he ▸ hv)
            omega
          calc fwRef (wOf d n) (k + 1) i j
              ≤ fwRef (wOf d n) k i k + fwRef (wOf d n) k k j := min_le_right _ _
            _ = fwRef (wOf d n) (k + 1) i k + fwRef (wOf d n) k k j := by
                rw [fwRef_freeze_col d n hdiag k i]
            _ ≤ wWeight (wOf d n) i a k + wWeight (wOf d n) k b j := add_le_add h3 h4
        · have hml : ∀ v ∈ l, v < k := by
            intro v hv
            have := hmem v hv
            have hvk : v ≠ k := fun he => hkl (he ▸ hv)
            omega
          calc fwRef (wOf d n) (k + 1) i j
              ≤ fwRef (wOf d n) k i j := min_le_left _ _
            _ ≤ wWeight (wOf d n) i l j := ihk l i j hml
    intro l i j hmem
    exact inner l.length l le_rfl i j hmem

/-- The reference relaxation value is attained by a walk whose
intermediate vertices lie below k. -/

theorem fwRef_exists_walk (d : ℕ → ℤ) (n : ℕ) :
    ∀ (k i j : ℕ), ∃ l : List ℕ,
      (∀ v ∈ l, v < k) ∧ wWeight (wOf d n) i l j = fwRef (wOf d n) k i j := by
  intro k
  induction k with
  | zero =>
    intro i j
    exact ⟨[], fun v hv => absurd hv (List.not_mem_nil v), rfl⟩
  | succ k ih =>
    intro i j
    obtain ⟨l1, hm1, he1⟩ := ih i j
    obtain ⟨l2, hm2, he2⟩ := ih i k
    obtain ⟨l3, hm3, he3⟩ := ih k j
    rcases le_total (fwRef (wOf d n) k i j)
        (fwRef (wOf d n) k i k + fwRef (wOf d n) k k j) with h | h
    · refine ⟨l1, fun v hv => Nat.lt_succ_of_lt (hm1 v hv), ?_⟩
      show wWeight (wOf d n) i l1 j =
        min (fwRef (wOf d n) k i j) (fwRef (wOf d n) k i k + fwRef (wOf d n) k k j)
      rw [he1, min_eq_left h]
    · refine ⟨l2 ++ k :: l3, ?_, ?_⟩
      · intro v hv
        rcases List.mem_append.mp hv with h1 | h1
        · exact Nat.lt_succ_of_lt (hm2 v h1)
        · rcases List.mem_cons.mp h1 with h2 | h2
          · omega
          · exact Nat.lt_succ_of_lt (hm3 v h2)
      · show wWeight (wOf d n) i (l2 ++ k :: l3) j =
          min (fwRef (wOf d n) k i j) (fwRef (wOf d n) k i k + fwRef (wOf d n) k k j)
        rw [wWeight_append, he2, he3, min_eq_right h]

/-- Every walk dominates a duplicate-free walk between the same
endpoints using a subset of its intermediate vertices (weights are
non-negative in the min-plus semiring, so dropping loops never
increases weight). -/

theorem walk_nodup (w : ℕ → ℕ → ℕ∞) :
    ∀ (L : ℕ) (l : List ℕ), l.length ≤ L → ∀ (i j : ℕ),
      ∃ l2 : List ℕ, (i :: l2).Nodup ∧ l2 ⊆ l ∧
        wWeight w i l2 j ≤ wWeight w i l j := by
  intro L
  induction L with
  | zero =>
    intro l hl i j
    have hnil : l = [] := List.length_eq_zero.mp (by omega)
    subst hnil
    exact ⟨[], List.nodup_singleton i, List.Subset.refl [], le_rfl⟩
  | succ L ihL =>
    intro l hlen i j
    by_cases hil : i ∈ l
    · obtain ⟨a, b, heq, _⟩ := mem_split_last i l hil
      subst heq
      have hlb : b.length ≤ L := by
        have := List.length_append a (i :: b)
        simp only [List.length_cons] at this
        omega
      obtain ⟨l2, hnd, hsub, hle⟩ := ihL b hlb i j
      refine ⟨l2, hnd, ?_, ?_⟩
      · intro v hv
        exact List.mem_append.mpr (Or.inr (List.mem_cons.mpr (Or.inr (hsub hv))))
      · calc wWeight w i l2 j ≤ wWeight w i b j := hle
          _ ≤ wWeight w i a i + wWeight w i b j := le_add_self
          _ = wWeight w i (a ++ i :: b) j := (wWeight_append w i j a i b).symm
    · cases l with
      | nil => exact ⟨[], List.nodup_singleton i, List.Subset.refl [], le_rfl⟩
      | cons v t =>
        have hlt : t.length ≤ L := by
          simp only [List.length_cons] at hlen
          omega
        obtain ⟨l2, hnd, hsub, hle⟩ := ihL t hlt v j
        refine ⟨v :: l2, ?_, ?_, ?_⟩
        · refine List.nodup_cons.mpr ⟨?_, hnd⟩
          intro hmem
          rcases List.mem_cons.mp hmem with h | h
          · exact hil (h ▸ List.mem_cons_self v t)
          · exact hil (List.mem_cons.mpr (Or.inr (hsub h)))
        · intro u hu
          rcases List.mem_cons.mp hu with h | h
          · exact h ▸ List.mem_cons_self v t
          · exact List.mem_cons.mpr (Or.inr (hsub h))
        · show w i v + wWeight w v l2 j ≤ w i v + wWeight w v t j
          exact add_le_add_left hle _

/-- A finite in-range edge weight is bounded by its row sum. -/

theorem wOf_le_rowSum (d : ℕ → ℤ) (n i j : ℕ) (hi : i < n) (hj : j < n)
    (h : wOf d n i j ≠ ⊤) :
    wOf d n i j ≤ ((rowSum d n i : ℕ) : ℕ∞) := by
  unfold wOf at *
  rw [if_pos ⟨hi, hj⟩] at *
  unfold toW at *
  by_cases hs : d (i * n + j) = IMAX
  · rw [if_pos hs] at h
    exact absurd rfl h
  · rw [if_neg hs]
    have hfin : (d (i * n + j)).toNat = finW d n i j := by
      unfold finW
      rw [if_neg hs]
    rw [hfin]
    exact_mod_cast Finset.single_le_sum
      (f := fun j => finW d n i j) (fun x _ => Nat.zero_le _) (Finset.mem_range.mpr hj)

/-- A finite in-range walk weight is bounded by the sum of the row
sums of its vertices. -/

theorem weight_le_listSum (d : ℕ → ℤ) (n j : ℕ) (hj : j < n) :
    ∀ (l : List ℕ) (i : ℕ), i < n → (∀ v ∈ l, v < n) →
      wWeight (wOf d n) i l j ≠ ⊤ →
      wWeight (wOf d n) i l j ≤ ((((i :: l).map (fun v => rowSum d n v)).sum : ℕ) : ℕ∞) := by
  intro l
  induction l with
  | nil =>
    intro i hi _ hne
    have h := wOf_le_rowSum d n i j hi hj hne
    calc wWeight (wOf d n) i [] j = wOf d n i j := rfl
      _ ≤ ((rowSum d n i : ℕ) : ℕ∞) := h
      _ = ((([i].map (fun v => rowSum d n v)).sum : ℕ) : ℕ∞) := by
          simp only [List.map_cons, List.map_nil, List.sum_cons, List.sum_nil, Nat.add_zero]
  | cons v t ih =>
    intro i hi hmem hne
    have hsplit : wWeight (wOf d n) i (v :: t) j =
        wOf d n i v + wWeight (wOf d n) v t j := rfl
    rw [hsplit] at hne ⊢
    have hne1 : wOf d n i v ≠ ⊤ := by
      intro h
      rw [h, top_add] at hne
      exact hne rfl
    have hne2 : wWeight (wOf d n) v t j ≠ ⊤ := by
      intro h
      rw [h, add_top] at hne
      exact hne rfl
    have hvn : v < n := hmem v (List.mem_cons_self v t)
    have h1 := wOf_le_rowSum d n i v hi hvn hne1
    have h2 := ih v hvn (fun u hu => hmem u (List.mem_cons.mpr (Or.inr hu))) hne2
    calc wOf d n i v + wWeight (wOf d n) v t j
        ≤ ((rowSum d n i : ℕ) : ℕ∞) + ((((v :: t).map (fun v => rowSum d n v)).sum : ℕ) : ℕ∞) :=
          add_le_add h1 h2
      _ = ((rowSum d n i + ((v :: t).map (fun v => rowSum d n v)).sum : ℕ) : ℕ∞) := by
          exact_mod_cast (Nat.cast_add _ _).symm
      _ = ((((i :: v :: t).map (fun v => rowSum d n v)).sum : ℕ) : ℕ∞) := by
          simp only [List.map_cons, List.sum_cons]

/-- The row sums of a duplicate-free in-range vertex list are bounded
by the total finite-entry sum. -/

theorem listSum_le_Ssum (d : ℕ → ℤ) (n : ℕ) (l : List ℕ) (i : ℕ)
    (hnd : (i :: l).Nodup) (hmem : ∀ v ∈ i :: l, v < n) :
    ((i :: l).map (fun v => rowSum d n v)).sum ≤ Ssum d n := by
  have h1 : (i :: l).toFinset.sum (fun v => rowSum d n v) =
      ((i :: l).map (fun v => rowSum d n v)).sum :=
    List.sum_toFinset _ hnd
  rw [← h1]
  apply Finset.sum_le_sum_of_subset
  intro v hv
  rw [List.mem_toFinset] at hv
  exact Finset.mem_range.mpr (hmem v hv)

/-- Every finite value of the reference relaxation (at any stage up to
n) is bounded by the total finite-entry sum of the input matrix. -/

theorem fwRef_bound (d : ℕ → ℤ) (n : ℕ)
    (hdiag : ∀ i ∈ Finset.range n, d (i * n + i) = 0) :
    ∀ (k i j : ℕ), i < n → j < n → k ≤ n →
      fwRef (wOf d n) k i j = ⊤ ∨
        ∃ m : ℕ, m ≤ Ssum d n ∧ fwRef (wOf d n) k i j = (m : ℕ∞) := by
  intro k i j hi hj hk
  rcases eq_or_ne (fwRef (wOf d n) k i j) ⊤ with htop | hne
  · exact Or.inl htop
  · right
    refine ⟨(fwRef (wOf d n) k i j).toNat, ?_, (ENat.coe_toNat hne).symm⟩
    obtain ⟨l, hlmem, hlw⟩ := fwRef_exists_walk d n k i j
    obtain ⟨l2, hnd, hsub, hle⟩ := walk_nodup (wOf d n) l.length l le_rfl i j
    have hl2mem : ∀ v ∈ l2, v < k := fun v hv => hlmem v (hsub hv)
    have hwle : fwRef (wOf d n) k i j ≤ wWeight (wOf d n) i l2 j :=
      fwRef_le_weight d n hdiag k l2 i j hl2mem
    have hne2 : wWeight (wOf d n) i l2 j ≠ ⊤ := by
      intro h
      rw [h] at hle
      have h3 : wWeight (wOf d n) i l j = ⊤ := top_le_iff.mp hle
      rw [hlw] at h3
      exact hne h3
    have hmem2 : ∀ v ∈ i :: l2, v < n := by
      intro v hv
      rcases List.mem_cons.mp hv with h | h
      · omega
      · exact lt_of_lt_of_le (hl2mem v h) hk
    have hbound := weight_le_listSum d n j hj l2 i hi
      (fun v hv => lt_of_lt_of_le (hl2mem v hv) hk) hne2
    have hSs := listSum_le_Ssum d n l2 i hnd hmem2
    have hchain : fwRef (wOf d n) k i j ≤ ((Ssum d n : ℕ) : ℕ∞) := by
      calc fwRef (wOf d n) k i j ≤ wWeight (wOf d n) i l2 j := hwle
        _ ≤ ((((i :: l2).map (fun v => rowSum d n v)).sum : ℕ) : ℕ∞) := hbound
        _ ≤ ((Ssum d n : ℕ) : ℕ∞) := by exact_mod_cast hSs
    have hfin : ((fwRef (wOf d n) k i j).toNat : ℕ∞) = fwRef (wOf d n) k i j :=
      ENat.coe_toNat hne
    rw [← hfin] at hchain
    exact_mod_cast hchain

/-- The reference relaxation after all n pivots computes the true
shortest-path distance for every in-range pair. -/

theorem fwRef_isDist (d : ℕ → ℤ) (n : ℕ)
    (hdiag : ∀ i ∈ Finset.range n, d (i * n + i) = 0)
    (i j : ℕ) (hi : i < n) (hj : j < n) :
    IsDist (wOf d n) i j (fwRef (wOf d n) n i j) := by
  constructor
  · intro l
    by_cases hmem : ∀ v ∈ l, v < n
    · exact fwRef_le_weight d n hdiag n l i j hmem
    · push_neg at hmem
      obtain ⟨v, hv, hvn⟩ := hmem
      rw [wWeight_top_mem d n l i j v hv (by omega)]
      exact le_top
  · obtain ⟨l, _, hw⟩ := fwRef_exists_walk d n n i j
    exact Or.inr ⟨l, hw⟩

/-- Triangle inequality of the converged reference relaxation. -/

theorem fwRef_triangle (d : ℕ → ℤ) (n : ℕ)
    (hdiag : ∀ i ∈ Finset.range n, d (i * n + i) = 0) (i j v : ℕ) :
    fwRef (wOf d n) n i j ≤ fwRef (wOf d n) n i v + fwRef (wOf d n) n v j := by
  rcases Nat.lt_or_ge v n with hv | hv
  · rcases Nat.lt_or_ge i n with hi | hi
    · rcases Nat.lt_or_ge j n with hj | hj
      · obtain ⟨l2, hm2, he2⟩ := fwRef_exists_walk d n n i v
        obtain ⟨l3, hm3, he3⟩ := fwRef_exists_walk d n n v j
        have hmem : ∀ u ∈ l2 ++ v :: l3, u < n := by
          intro u hu
          rcases List.mem_append.mp hu with h | h
          · exact hm2 u h
          · rcases List.mem_cons.mp h with h2 | h2
            · omega
            · exact hm3 u h2
        calc fwRef (wOf d n) n i j
            ≤ wWeight (wOf d n) i (l2 ++ v :: l3) j :=
              fwRef_le_weight d n hdiag n (l2 ++ v :: l3) i j hmem
          _ = wWeight (wOf d n) i l2 v + wWeight (wOf d n) v l3 j := wWeight_append _ _ _ _ _ _
          _ = fwRef (wOf d n) n i v + fwRef (wOf d n) n v j := by rw [he2, he3]
      · rw [fwRef_top_right d n n v j hj, add_top]
        exact le_top
    · rw [fwRef_top_left d n n i v hi, top_add]
      exact le_top
  · rw [fwRef_top_right d n n i v hv, top_add]
    exact le_top

/-- A triangle-closed weight matrix is a fixed point of the reference
relaxation. -/

theorem fwRef_closed (g : ℕ → ℕ → ℕ∞) (htri : ∀ i j v, g i j ≤ g i v + g v j) :
    ∀ k : ℕ, fwRef g k = g := by
  intro k
  induction k with
  | zero => rfl
  | succ k ih =>
    funext i j
    show min (fwRef g k i j) (fwRef g k i k + fwRef g k k j) = g i j
    rw [ih]
    exact min_eq_left (htri i j k)

/-- Key decode lemma: one C relaxation step on decoded values equals
the decoded min-plus step, provided all finite values are bounded by
S with 2S below INT_MAX (so the C sum neither wraps nor collides with
the sentinel). -/

theorem ofW_min_satAdd (a b c : ℕ∞) (S : ℕ) (hS : 2 * S < 2147483647)
    (ha : a = ⊤ ∨ ∃ m : ℕ, m ≤ S ∧ a = (m : ℕ∞))
    (hb : b = ⊤ ∨ ∃ m : ℕ, m ≤ S ∧ b = (m : ℕ∞))
    (hc : c = ⊤ ∨ ∃ m : ℕ, m ≤ S ∧ c = (m : ℕ∞)) :
    min (ofW a) (satAdd (ofW b) (ofW c)) = ofW (min a (b + c)) := by
  have hIM : IMAX = 2147483647 := by decide
  have hSz : 2 * (S : ℤ) < 2147483647 := by exact_mod_cast hS
  have haI : ofW a ≤ IMAX := by
    rcases ha with h | ⟨m, hm, h⟩
    · rw [h, ofW_top]
    · rw [h, ofW_coe]
      have : (m : ℤ) ≤ (S : ℤ) := by exact_mod_cast hm
      omega
  rcases hb with hbt | ⟨m2, hm2, hb2⟩
  · rw [hbt, ofW_top, top_add]
    have hsat : satAdd IMAX (ofW c) = IMAX := by
      unfold satAdd
      rw [if_pos (Or.inl rfl)]
    rw [hsat, min_eq_left haI, min_eq_left le_top]
  · rcases hc with hct | ⟨m3, hm3, hc3⟩
    · rw [hct, ofW_top, add_top]
      have hsat : satAdd (ofW b) IMAX = IMAX := by
        unfold satAdd
        rw [if_pos (Or.inr rfl)]
      rw [hsat, min_eq_left haI, min_eq_left le_top]
    · rw [hb2, hc3, ofW_coe, ofW_coe]
      have hm2z : (m2 : ℤ) ≤ (S : ℤ) := by exact_mod_cast hm2
      have hm3z : (m3 : ℤ) ≤ (S : ℤ) := by exact_mod_cast hm3
      have hpow : (2 : ℤ) ^ 31 = 2147483648 := by norm_num
      have hsat : satAdd (m2 : ℤ) (m3 : ℤ) = ((m2 + m3 : ℕ) : ℤ) := by
        unfold satAdd
        rw [if_neg (by rw [hIM]; push_cast; omega)]
        rw [wrap32_id _ (by positivity) (by rw [hpow]; omega)]
        push_cast
        ring
      rw [hsat]
      have hbc : ((m2 : ℕ∞) + (m3 : ℕ∞)) = ((m2 + m3 : ℕ) : ℕ∞) := by
        exact_mod_cast (Nat.cast_add m2 m3).symm
      rw [hbc]
      rcases ha with hat | ⟨m1, hm1, ha1⟩
      · rw [hat, ofW_top]
        have h23 : ((m2 + m3 : ℕ) : ℤ) ≤ IMAX := by
          rw [hIM]; push_cast; omega
        rw [min_eq_right h23, min_eq_right le_top, ofW_coe]
      · rw [ha1, ofW_coe]
        rcases le_total m1 (m2 + m3) with h | h
        · have hz : (m1 : ℤ) ≤ ((m2 + m3 : ℕ) : ℤ) := by exact_mod_cast h
          have he : ((m1 : ℕ∞)) ≤ ((m2 + m3 : ℕ) : ℕ∞) := by exact_mod_cast h
          rw [min_eq_left hz, min_eq_left he, ofW_coe]
        · have hz : ((m2 + m3 : ℕ) : ℤ) ≤ (m1 : ℤ) := by exact_mod_cast h
          have he : ((m2 + m3 : ℕ) : ℕ∞) ≤ (m1 : ℕ∞) := by exact_mod_cast h
          rw [min_eq_right hz, min_eq_right he, ofW_coe]

/-- Flat indices of in-range cells determine row and column. -/

theorem flat_eq (n i2 j2 I J : ℕ) (hj2 : j2 < n) (hJ : J < n)
    (h : i2 * n + j2 = I * n + J) : i2 = I ∧ j2 = J := by
  rcases eq_or_ne i2 I with he | hne
  · subst he
    exact ⟨rfl, by omega⟩
  · exfalso
    rcases row_disjoint n I i2 j2 (Ne.symm hne) hj2 with h1 | h1 <;> omega

/-- One C relaxation step advances the mixed-matrix
correspondence by one cell. -/

theorem fwStep_bridge (d : ℕ → ℤ) (n S : ℕ)
    (hdiag : ∀ i ∈ Finset.range n, d (i * n + i) = 0)
    (hS : 2 * S < 2147483647)
    (hbound : ∀ k i j : ℕ, k ≤ n → i < n → j < n →
      fwRef (wOf d n) k i j = ⊤ ∨ ∃ m : ℕ, m ≤ S ∧ fwRef (wOf d n) k i j = (m : ℕ∞))
    (k I J : ℕ) (hk : k < n) (hI : I < n) (hJ : J < n) (s : ℕ → ℤ)
    (hA : Agrees s (gmix (fwRef (wOf d n) k) (fwRef (wOf d n) (k + 1)) I J) n) :
    Agrees (fwStep n k I J s)
      (gmix (fwRef (wOf d n) k) (fwRef (wOf d n) (k + 1)) I (J + 1)) n := by
  intro i2 j2 hi2 hj2
  unfold fwStep upd
  by_cases hcell : i2 * n + j2 = I * n + J
  · rw [if_pos hcell]
    obtain ⟨hiI, hjJ⟩ := flat_eq n i2 j2 I J hj2 hJ hcell
    subst hiI
    subst hjJ
    have ha2 : s (i2 * n + j2) = ofW (fwRef (wOf d n) k i2 j2) := by
      have h1 := hA i2 j2 hi2 hj2
      have h2 : gmix (fwRef (wOf d n) k) (fwRef (wOf d n) (k + 1)) i2 j2 i2 j2 =
          fwRef (wOf d n) k i2 j2 := by
        unfold gmix
        rw [if_neg (by omega)]
      rw [h1, h2]
    have hb2 : s (i2 * n + k) = ofW (fwRef (wOf d n) k i2 k) := by
      have h1 := hA i2 k hi2 hk
      have h2 : gmix (fwRef (wOf d n) k) (fwRef (wOf d n) (k + 1)) i2 j2 i2 k =
          fwRef (wOf d n) k i2 k := by
        unfold gmix
        by_cases hcond : i2 < i2 ∨ (i2 = i2 ∧ k < j2)
        · rw [if_pos hcond]
          exact fwRef_freeze_col d n hdiag k i2
        · rw [if_neg hcond]
      rw [h1, h2]
    have hc2 : s (k * n + j2) = ofW (fwRef (wOf d n) k k j2) := by
      have h1 := hA k j2 hk hj2
      have h2 : gmix (fwRef (wOf d n) k) (fwRef (wOf d n) (k + 1)) i2 j2 k j2 =
          fwRef (wOf d n) k k j2 := by
        unfold gmix
        by_cases hcond : k < i2 ∨ (k = i2 ∧ j2 < j2)
        · rw [if_pos hcond]
          exact fwRef_freeze_row d n hdiag k j2
        · rw [if_neg hcond]
      rw [h1, h2]
    rw [ha2, hb2, hc2]
    have hkey := ofW_min_satAdd (fwRef (wOf d n) k i2 j2) (fwRef (wOf d n) k i2 k)
      (fwRef (wOf d n) k k j2) S hS
      (hbound k i2 j2 (by omega) hi2 hj2)
      (hbound k i2 k (by omega) hi2 hk)
      (hbound k k j2 (by omega) hk hj2)
    rw [hkey]
    have hmixval : gmix (fwRef (wOf d n) k) (fwRef (wOf d n) (k + 1)) i2 (j2 + 1) i2 j2 =
        min (fwRef (wOf d n) k i2 j2)
          (fwRef (wOf d n) k i2 k + fwRef (wOf d n) k k j2) := by
      unfold gmix
      rw [if_pos (by omega)]
      rfl
    rw [hmixval]
  · rw [if_neg hcell]
    have h1 := hA i2 j2 hi2 hj2
    rw [h1]
    have hne2 : ¬ (i2 = I ∧ j2 = J) := fun hand => hcell (by rw [hand.1, hand.2])
    unfold gmix
    have hiff : (i2 < I ∨ (i2 = I ∧ j2 < J)) ↔ (i2 < I ∨ (i2 = I ∧ j2 < J + 1)) := by
      omega
    rw [if_congr hiff rfl rfl]

/-- A full row pass advances the mixed-matrix correspondence by one
row. -/

theorem fwRow_bridge (d : ℕ → ℤ) (n S : ℕ)
    (hdiag : ∀ i ∈ Finset.range n, d (i * n + i) = 0)
    (hS : 2 * S < 2147483647)
    (hbound : ∀ k i j : ℕ, k ≤ n → i < n → j < n →
      fwRef (wOf d n) k i j = ⊤ ∨ ∃ m : ℕ, m ≤ S ∧ fwRef (wOf d n) k i j = (m : ℕ∞))
    (k I : ℕ) (hk : k < n) (hI : I < n) (s : ℕ → ℤ)
    (hA : Agrees s (gmix (fwRef (wOf d n) k) (fwRef (wOf d n) (k + 1)) I 0) n) :
    Agrees (fwRow n k I s)
      (gmix (fwRef (wOf d n) k) (fwRef (wOf d n) (k + 1)) I n) n := by
  have main : ∀ J : ℕ, J ≤ n →
      Agrees (loopN (fun j t => fwStep n k I j t) J s)
        (gmix (fwRef (wOf d n) k) (fwRef (wOf d n) (k + 1)) I J) n := by
    intro J
    induction J with
    | zero => intro _; exact hA
    | succ J ih =>
      intro hJn
      show Agrees (fwStep n k I J (loopN (fun j t => fwStep n k I j t) J s))
        (gmix (fwRef (wOf d n) k) (fwRef (wOf d n) (k + 1)) I (J + 1)) n
      exact fwStep_bridge d n S hdiag hS hbound k I J hk hI (by omega) _ (ih (by omega))
  exact main n le_rfl

/-- A full pivot pass takes the correspondence from stage k to stage
k + 1. -/

theorem fwPivot_bridge (d : ℕ → ℤ) (n S : ℕ)
    (hdiag : ∀ i ∈ Finset.range n, d (i * n + i) = 0)
    (hS : 2 * S < 2147483647)
    (hbound : ∀ k i j : ℕ, k ≤ n → i < n → j < n →
      fwRef (wOf d n) k i j = ⊤ ∨ ∃ m : ℕ, m ≤ S ∧ fwRef (wOf d n) k i j = (m : ℕ∞))
    (k : ℕ) (hk : k < n) (s : ℕ → ℤ)
    (hA : Agrees s (fwRef (wOf d n) k) n) :
    Agrees (fwPivot n k s) (fwRef (wOf d n) (k + 1)) n := by
  have main : ∀ I : ℕ, I ≤ n →
      Agrees (loopN (fun i t => fwRow n k i t) I s)
        (gmix (fwRef (wOf d n) k) (fwRef (wOf d n) (k + 1)) I 0) n := by
    intro I
    induction I with
    | zero =>
      intro _
      intro i j hi hj
      show s (i * n + j) =
        ofW (gmix (fwRef (wOf d n) k) (fwRef (wOf d n) (k + 1)) 0 0 i j)
      rw [hA i j hi hj]
      have h2 : gmix (fwRef (wOf d n) k) (fwRef (wOf d n) (k + 1)) 0 0 i j =
          fwRef (wOf d n) k i j := by
        unfold gmix
        rw [if_neg (by omega)]
      rw [h2]
    | succ I ih =>
      intro hI
      have hrow := fwRow_bridge d n S hdiag hS hbound k I hk (by omega) _ (ih (by omega))
      intro i j hi hj
      show fwRow n k I (loopN (fun i t => fwRow n k i t) I s) (i * n + j) =
        ofW (gmix (fwRef (wOf d n) k) (fwRef (wOf d n) (k + 1)) (I + 1) 0 i j)
      rw [hrow i j hi hj]
      have h2 : gmix (fwRef (wOf d n) k) (fwRef (wOf d n) (k + 1)) I n i j =
          gmix (fwRef (wOf d n) k) (fwRef (wOf d n) (k + 1)) (I + 1) 0 i j := by
        unfold gmix
        have hiff : (i < I ∨ (i = I ∧ j < n)) ↔ (i < I + 1 ∨ (i = I + 1 ∧ j < 0)) := by
          omega
        rw [if_congr hiff rfl rfl]
      rw [h2]
  intro i j hi hj
  have hlast := main n le_rfl i j hi hj
  show loopN (fun i t => fwRow n k i t) n s (i * n + j) =
    ofW (fwRef (wOf d n) (k + 1) i j)
  rw [hlast]
  have h2 : gmix (fwRef (wOf d n) k) (fwRef (wOf d n) (k + 1)) n 0 i j =
      fwRef (wOf d n) (k + 1) i j := by
    unfold gmix
    rw [if_pos (Or.inl hi)]
  rw [h2]

/-- Bridge: the scalar FloyD kernel, run sequentially, decodes the
converged reference relaxation, provided the input is a valid APSP
matrix whose reference values stay bounded by S with 2S below
INT_MAX. -/

theorem FloyD_bridge (n : ℕ) (r d : ℕ → ℤ) (S : ℕ)
    (hrange : ∀ i ∈ Finset.range n, ∀ j ∈ Finset.range n,
        0 ≤ d (i * n + j) ∧ d (i * n + j) ≤ IMAX)
    (hdiag : ∀ i ∈ Finset.range n, d (i * n + i) = 0)
    (hS : 2 * S < 2147483647)
    (hbound : ∀ k i j : ℕ, k ≤ n → i < n → j < n →
      fwRef (wOf d n) k i j = ⊤ ∨ ∃ m : ℕ, m ≤ S ∧ fwRef (wOf d n) k i j = (m : ℕ∞)) :
    ∀ i j : ℕ, i < n → j < n →
      FloyD r d n (i * n + j) = ofW (fwRef (wOf d n) n i j) := by
  have hcopy : Agrees (copyPhase r d n) (fwRef (wOf d n) 0) n := by
    intro i j hi hj
    rw [copyPhase_value r d n i j hi hj]
    show d (i * n + j) = ofW (wOf d n i j)
    unfold wOf
    rw [if_pos ⟨hi, hj⟩]
    have hr := hrange i (Finset.mem_range.mpr hi) j (Finset.mem_range.mpr hj)
    exact (ofW_toW _ hr.1 hr.2).symm
  have main : ∀ m : ℕ, m ≤ n →
      Agrees (loopN (fun k s => fwPivot n k s) m (copyPhase r d n))
        (fwRef (wOf d n) m) n := by
    intro m
    induction m with
    | zero => intro _; exact hcopy
    | succ m ih =>
      intro hm
      show Agrees (fwPivot n m (loopN (fun k s => fwPivot n k s) m (copyPhase r d n)))
        (fwRef (wOf d n) (m + 1)) n
      exact fwPivot_bridge d n S hdiag hS hbound m (by omega) _ (ih (by omega))
  intro i j hi hj
  exact main n le_rfl i j hi hj

/-- No walk from vertex 0 to vertex 2 of the overflow matrix has
weight zero: its only zero-weight edges are self-loops. -/

theorem dOverflow_no_zero_walk :
    ∀ l : List ℕ, wWeight (wOf dOverflow 3) 0 l 2 ≠ 0 := by
  intro l
  induction l with
  | nil =>
    show wOf dOverflow 3 0 2 ≠ 0
    decide
  | cons v t ih =>
    show wOf dOverflow 3 0 v + wWeight (wOf dOverflow 3) v t 2 ≠ 0
    intro h
    have hsplit := add_eq_zero.mp h
    have hv : v = 0 := by
      by_contra hvne
      rcases Nat.lt_or_ge v 3 with hv3 | hv3
      · interval_cases v
        · exact hvne rfl
        · exact absurd hsplit.1 (by decide)
        · exact absurd hsplit.1 (by decide)
      · have ht : wOf dOverflow 3 0 v = ⊤ := by
          unfold wOf
          rw [if_neg (by omega)]
        rw [ht] at hsplit
        exact absurd hsplit.1 (by decide)
    subst hv
    exact ih hsplit.2

/-- Claim C2, counterexample: on the valid symmetric matrix dOverflow
(weights 2^30 on the path 0 - 1 - 2, zero diagonal, sentinel
elsewhere), the kernel relaxes 2^30 + 2^30 without saturating, wraps
to -2^31, and stores it: cell (0, 2) of the output is -2^31, which is
not the true shortest-path distance of the (reachable) pair and not
the sentinel. -/

theorem FloyD_overflow_not_dist :
    FloyD zeroBuf dOverflow 3 (0 * 3 + 2) = -(2 ^ 31) ∧
      ¬ IsDist (wOf dOverflow 3) 0 2 (toW (FloyD zeroBuf dOverflow 3 (0 * 3 + 2))) := by
  have hcell : FloyD zeroBuf dOverflow 3 (0 * 3 + 2) = -(2 ^ 31) := by decide
  refine ⟨hcell, ?_⟩
  rw [hcell]
  have htw : toW (-(2 ^ 31)) = (0 : ℕ∞) := by decide
  rw [htw]
  rintro ⟨hlb, hach⟩
  rcases hach with htop | ⟨l, hl⟩
  · exact absurd htop (by decide)
  · exact dOverflow_no_zero_walk l hl

/-- Claim C2, amended with the weight bound the counterexample forces:
for every symmetric non-negative matrix with zero diagonal whose
finite entries sum to less than half of INT_MAX, the sequential
scalar FloyD kernel computes, in every in-range cell, exactly the
decoded value of the pure scalar min-plus reference relaxation, and
that value is the true shortest-path distance for every reachable
pair and the sentinel for every unreachable pair. -/

theorem FloyD_shortest_paths (n : ℕ) (r d : ℕ → ℤ)
    (hrange : ∀ i ∈ Finset.range n, ∀ j ∈ Finset.range n,
        0 ≤ d (i * n + j) ∧ d (i * n + j) ≤ IMAX)
    (hsym : ∀ i ∈ Finset.range n, ∀ j ∈ Finset.range n, d (i * n + j) = d (j * n + i))
    (hdiag : ∀ i ∈ Finset.range n, d (i * n + i) = 0)
    (hS : 2 * Ssum d n < 2147483647) :
    ∀ i ∈ Finset.range n, ∀ j ∈ Finset.range n,
      FloyD r d n (i * n + j) = ofW (fwRef (wOf d n) n i j) ∧
        IsDist (wOf d n) i j (toW (FloyD r d n (i * n + j))) := by
  intro i hi j hj
  rw [Finset.mem_range] at hi hj
  have hbound : ∀ k i j : ℕ, k ≤ n → i < n → j < n →
      fwRef (wOf d n) k i j = ⊤ ∨ ∃ m : ℕ, m ≤ Ssum d n ∧ fwRef (wOf d n) k i j = (m : ℕ∞) :=
    fun k i j hk hi hj => fwRef_bound d n hdiag k i j hi hj hk
  have hbr := FloyD_bridge n r d (Ssum d n) hrange hdiag hS hbound
  refine ⟨hbr i j hi hj, ?_⟩
  rw [hbr i j hi hj]
  have hrt : toW (ofW (fwRef (wOf d n) n i j)) = fwRef (wOf d n) n i j := by
    apply toW_ofW
    rcases fwRef_bound d n hdiag n i j hi hj le_rfl with h | ⟨m, hm, h⟩
    · exact Or.inl h
    · refine Or.inr ⟨m, ?_, h⟩
      have hmz : (m : ℤ) ≤ (Ssum d n : ℤ) := by exact_mod_cast hm
      have hSz : 2 * ((Ssum d n : ℕ) : ℤ) < 2147483647 := by exact_mod_cast hS
      have hIM : IMAX = 2147483647 := by decide
      omega
  rw [hrt]
  exact fwRef_isDist d n hdiag i j hi hj

/-- Witness for FloyD_shortest_paths on the concrete n = 4 scenario
matrix at cell (0, 3). -/

theorem FloyD_shortest_paths_witness :
    FloyD zeroBuf dmat4 4 (0 * 4 + 3) = ofW (fwRef (wOf dmat4 4) 4 0 3) ∧
      IsDist (wOf dmat4 4) 0 3 (toW (FloyD zeroBuf dmat4 4 (0 * 4 + 3))) :=
  FloyD_shortest_paths 4 zeroBuf dmat4 (by decide) (by decide) (by decide) (by decide)
    0 (by decide) 3 (by decide)

/-- Claim C7, amended with the weight bound the counterexample forces:
for every symmetric non-negative matrix with zero diagonal whose
finite entries sum to less than half of INT_MAX, running the scalar
FloyD kernel a second time with its own output as the new input
leaves every in-range cell unchanged: the converged distance matrix
is triangle-closed, so every relaxation candidate is dominated. -/

theorem FloyD_idempotent (n : ℕ) (r1 r2 d : ℕ → ℤ)
    (hrange : ∀ i ∈ Finset.range n, ∀ j ∈ Finset.range n,
        0 ≤ d (i * n + j) ∧ d (i * n + j) ≤ IMAX)
    (hsym : ∀ i ∈ Finset.range n, ∀ j ∈ Finset.range n, d (i * n + j) = d (j * n + i))
    (hdiag : ∀ i ∈ Finset.range n, d (i * n + i) = 0)
    (hS : 2 * Ssum d n < 2147483647) :
    ∀ i ∈ Finset.range n, ∀ j ∈ Finset.range n,
      FloyD r2 (FloyD r1 d n) n (i * n + j) = FloyD r1 d n (i * n + j) := by
  have hbound : ∀ k i j : ℕ, k ≤ n → i < n → j < n →
      fwRef (wOf d n) k i j = ⊤ ∨ ∃ m : ℕ, m ≤ Ssum d n ∧ fwRef (wOf d n) k i j = (m : ℕ∞) :=
    fun k i j hk hi hj => fwRef_bound d n hdiag k i j hi hj hk
  have hbr1 := FloyD_bridge n r1 d (Ssum d n) hrange hdiag hS hbound
  have hfin : ∀ i j : ℕ, i < n → j < n →
      fwRef (wOf d n) n i j = ⊤ ∨
        ∃ m : ℕ, (m : ℤ) < IMAX ∧ fwRef (wOf d n) n i j = (m : ℕ∞) := by
    intro i j hi hj
    rcases fwRef_bound d n hdiag n i j hi hj le_rfl with h | ⟨m, hm, h⟩
    · exact Or.inl h
    · refine Or.inr ⟨m, ?_, h⟩
      have hmz : (m : ℤ) ≤ (Ssum d n : ℤ) := by exact_mod_cast hm
      have hSz : 2 * ((Ssum d n : ℕ) : ℤ) < 2147483647 := by exact_mod_cast hS
      have hIM : IMAX = 2147483647 := by decide
      omega
  have hW2 : wOf (FloyD r1 d n) n = fwRef (wOf d n) n := by
    funext i j
    unfold wOf
    by_cases hij : i < n ∧ j < n
    · rw [if_pos hij, hbr1 i j hij.1 hij.2]
      exact toW_ofW _ (hfin i j hij.1 hij.2)
    · rw [if_neg hij]
      rcases Nat.lt_or_ge i n with hi | hi
      · have hj : n ≤ j := by
          rcases Nat.lt_or_ge j n with hj | hj
          · exact absurd ⟨hi, hj⟩ hij
          · exact hj
        exact (fwRef_top_right d n n i j hj).symm
      · exact (fwRef_top_left d n n i j hi).symm
  have hclosed : ∀ k : ℕ, fwRef (fwRef (wOf d n) n) k = fwRef (wOf d n) n :=
    fwRef_closed _ (fwRef_triangle d n hdiag)
  have hrange2 : ∀ i ∈ Finset.range n, ∀ j ∈ Finset.range n,
      0 ≤ FloyD r1 d n (i * n + j) ∧ FloyD r1 d n (i * n + j) ≤ IMAX := by
    intro i hi j hj
    rw [Finset.mem_range] at hi hj
    rw [hbr1 i j hi hj]
    rcases hfin i j hi hj with h | ⟨m, hm, h⟩
    · rw [h, ofW_top]
      exact ⟨by decide, le_rfl⟩
    · rw [h, ofW_coe]
      exact ⟨by positivity, by omega⟩
  have hdiag2 : ∀ i ∈ Finset.range n, FloyD r1 d n (i * n + i) = 0 := by
    intro i hi
    rw [Finset.mem_range] at hi
    rw [hbr1 i i hi hi, fwRef_diag d n hdiag n i hi]
    decide
  have hbound2 : ∀ k i j : ℕ, k ≤ n → i < n → j < n →
      fwRef (wOf (FloyD r1 d n) n) k i j = ⊤ ∨
        ∃ m : ℕ, m ≤ Ssum d n ∧ fwRef (wOf (FloyD r1 d n) n) k i j = (m : ℕ∞) := by
    intro k i j hk hi hj
    rw [hW2, hclosed k]
    rcases fwRef_bound d n hdiag n i j hi hj le_rfl with h | ⟨m, hm, h⟩
    · exact Or.inl h
    · exact Or.inr ⟨m, hm, h⟩
  have hbr2 := FloyD_bridge n r2 (FloyD r1 d n) (Ssum d n) hrange2 hdiag2 hS hbound2
  intro i hi j hj
  rw [Finset.mem_range] at hi hj
  rw [hbr2 i j hi hj, hW2, hclosed n, hbr1 i j hi hj]

/-- Witness for FloyD_idempotent on the concrete n = 4 scenario matrix
at cell (0, 3). -/

theorem FloyD_idempotent_witness :
    FloyD zeroBuf (FloyD zeroBuf dmat4 4) 4 (0 * 4 + 3) =
      FloyD zeroBuf dmat4 4 (0 * 4 + 3) :=
  FloyD_idempotent 4 zeroBuf zeroBuf dmat4 (by decide) (by decide) (by decide) (by decide)
    0 (by decide) 3 (by decide)
